import Mathlib

/-!
Verification development for the `fs-traverse` library
(`src/lib/fs-traverse.js`): a recursive filesystem traversal engine with a
concurrent (callback-based) mode and a sequential mode, plus filtering and
content-reading layers.

The filesystem is modelled as a fixed finite association list from path
strings to nodes (file with contents, or directory with a list of child
names).  `fs.stat` / `fs.readdir` / `fs.readFile` are lookups in that map;
a missing path makes the operation fail, mirroring an `ENOENT` from the
real collaborators.

The concurrent engine `eachFileOrDirectory` is embedded as a small-step
transition system: the state holds the list of in-flight asynchronous
operations, the `filesToCheck` counter, the accumulated `checkedFiles` /
`checkedStats` arrays, and a trace of every `fileHandler` /
`completeHandler` invocation.  A step picks one in-flight operation
(arbitrary index — this models the unspecified completion order of the
underlying I/O) and runs its callback atomically, exactly as the
single-threaded Node.js runtime does.  The engine is parametric in the
caller's handlers, just as the source function is; the filter and reader
layers are instantiations of those handlers.
-/

namespace FsTraverse

/-- A node of the modelled filesystem: a regular file with raw contents, or
a directory listing its child names. -/
inductive FSNode where
  | file : String → FSNode
  | dir : List String → FSNode
deriving DecidableEq

/-- The filesystem collaborator: a fixed association list from full path to
node.  Paths not in the list do not exist. -/
abbrev Fsys := List (String × FSNode)

/-- Look a path up in the filesystem (first matching entry wins). -/
def lookupFs : Fsys → String → Option FSNode
  | [], _ => none
  | (q, nd) :: rest, p => if q = p then some nd else lookupFs rest p

/-- The slice of a `Stat` record the library consumes: the
`isDirectory()` flag. -/
structure Stat where
  isDirectory : Bool
deriving DecidableEq

/-- The `Stat` produced by a successful `stat` of a node. -/
def statOf : FSNode → Stat
  | FSNode.file _ => ⟨false⟩
  | FSNode.dir _ => ⟨true⟩

/-- The stat a path would report (dummy file stat off the domain; only ever
used for paths present in the filesystem). -/
def statAt (fs : Fsys) (p : String) : Stat :=
  statOf ((lookupFs fs p).getD (FSNode.file ""))

/-- The contents a successful `readFile` of a path would deliver (dummy
value off the domain). -/
def contentAt (fs : Fsys) (p : String) : String :=
  match lookupFs fs p with
  | some (FSNode.file c) => c
  | _ => ""

/-- The error taxonomy: `enoent p` for stat/readdir/readFile of a missing
path, `enotdir p` for readdir of a non-directory, `eisdir p` for readFile
of a directory, and `invalidPath` for `fs.readFile(undefined)` (the error
Node raises when the path argument is not a string). -/
inductive IOErr where
  | enoent : String → IOErr
  | enotdir : String → IOErr
  | eisdir : String → IOErr
  | invalidPath : IOErr
deriving DecidableEq

/-- The path an error names, when it names one. -/
def errPathOf : IOErr → Option String
  | IOErr.enoent p => some p
  | IOErr.enotdir p => some p
  | IOErr.eisdir p => some p
  | IOErr.invalidPath => none

/-- `dir.replace(/\/$/, '')`: the anchored, non-global pattern removes at
most ONE trailing slash. -/
def stripTrailingSlash (s : String) : String :=
  if s.data.getLast? = some '/' then String.mk s.data.dropLast else s

/-- `fullFilePath_(dir, file)` from the source: join the directory path and
child name after stripping one trailing slash from the directory. -/
def fullFilePath (dir file : String) : String :=
  stripTrailingSlash dir ++ "/" ++ file

/-- An in-flight asynchronous collaborator call of the traversal engine:
an `fs.stat` or an `fs.readdir`. -/
inductive Op where
  | statOp : String → Op
  | readdirOp : String → Op
deriving DecidableEq

/-- The path an operation targets. -/
def Op.path : Op → String
  | Op.statOp p => p
  | Op.readdirOp p => p

/-- One recorded invocation of the engine's `fileHandler`: either
`fileHandler(null, file, stat)` or `fileHandler(err)`. -/
inductive Event where
  | ok : String → Stat → Event
  | err : IOErr → Event
deriving DecidableEq

/-- Whether an event list contains no error invocation. -/
def noErr (evts : List Event) : Bool :=
  evts.all fun e => match e with
    | Event.ok _ _ => true
    | Event.err _ => false

/-- The paths of the successful per-entry invocations, in order. -/
def okPaths (evts : List Event) : List String :=
  evts.filterMap fun e => match e with
    | Event.ok p _ => some p
    | Event.err _ => none

/-- The path/stat pairs of the successful per-entry invocations, in
order. -/
def okPairs (evts : List Event) : List (String × Stat) :=
  evts.filterMap fun e => match e with
    | Event.ok p st => some (p, st)
    | Event.err _ => none

/-- The caller-supplied callbacks of one `eachFileOrDirectory` invocation,
acting on the caller's private state `σ`.  `onComplete` receives the
engine's `checkedFiles` and `checkedStats`; the error argument is omitted
because `checkComplete_` in the source always passes `null` (it is never
reached on an error path). -/
structure Handlers (σ : Type) where
  onErr : IOErr → σ → σ
  onOk : String → Stat → σ → σ
  onComplete : List String → List Stat → σ → σ

/-- The state of one concurrent traversal session: the in-flight
operations, the `filesToCheck` counter, the accumulation arrays, the trace
of `fileHandler` and `completeHandler` invocations, and the caller's layer
state `ext`. -/
structure EngineState (σ : Type) where
  pending : List Op
  filesToCheck : Nat
  checkedFiles : List String
  checkedStats : List Stat
  events : List Event
  completions : List (List String × List Stat)
  ext : σ
deriving DecidableEq

/-- `onFileOrDirectory_`'s synchronous prefix: increment `filesToCheck`
and issue the `fs.stat` call. -/
def issueStat {σ : Type} (s : EngineState σ) (p : String) : EngineState σ :=
  { s with filesToCheck := s.filesToCheck + 1, pending := s.pending ++ [Op.statOp p] }

/-- `checkComplete_`: if the counter is zero, invoke the completion handler
with the accumulated arrays (the source passes `null` as its error
argument). -/
def checkComplete {σ : Type} (h : Handlers σ) (s : EngineState σ) : EngineState σ :=
  if s.filesToCheck = 0 then
    { s with completions := s.completions ++ [(s.checkedFiles, s.checkedStats)],
             ext := h.onComplete s.checkedFiles s.checkedStats s.ext }
  else s

/-- The body of the `fs.stat` callback in `onFileOrDirectory_`: decrement
the counter; on error invoke `fileHandler(err)` and return (note: no
`checkComplete_`); on success push the path and stat, invoke the handler,
then either issue `fs.readdir` (directory) or run `checkComplete_`. -/
def statCallback {σ : Type} (fs : Fsys) (h : Handlers σ) (p : String)
    (s : EngineState σ) : EngineState σ :=
  let s1 := { s with filesToCheck := s.filesToCheck - 1 }
  match lookupFs fs p with
  | none =>
    { s1 with events := s1.events ++ [Event.err (IOErr.enoent p)],
              ext := h.onErr (IOErr.enoent p) s1.ext }
  | some nd =>
    let st := statOf nd
    let s2 := { s1 with checkedFiles := s1.checkedFiles ++ [p],
                        checkedStats := s1.checkedStats ++ [st],
                        events := s1.events ++ [Event.ok p st],
                        ext := h.onOk p st s1.ext }
    if st.isDirectory then
      { s2 with filesToCheck := s2.filesToCheck + 1,
                pending := s2.pending ++ [Op.readdirOp p] }
    else
      checkComplete h s2

/-- The body of the `fs.readdir` callback in `onDirectory_`: decrement the
counter; on error invoke `fileHandler(err)` and return (no
`checkComplete_`); on success run `onFileOrDirectory_` on every joined
child path, then run `checkComplete_`. -/
def readdirCallback {σ : Type} (fs : Fsys) (h : Handlers σ) (p : String)
    (s : EngineState σ) : EngineState σ :=
  let s1 := { s with filesToCheck := s.filesToCheck - 1 }
  match lookupFs fs p with
  | none =>
    { s1 with events := s1.events ++ [Event.err (IOErr.enoent p)],
              ext := h.onErr (IOErr.enoent p) s1.ext }
  | some (FSNode.file _) =>
    { s1 with events := s1.events ++ [Event.err (IOErr.enotdir p)],
              ext := h.onErr (IOErr.enotdir p) s1.ext }
  | some (FSNode.dir cs) =>
    let s2 := cs.foldl (fun acc c => issueStat acc (fullFilePath p c)) s1
    checkComplete h s2

/-- Run the callback of one resolved operation. -/
def stepOp {σ : Type} (fs : Fsys) (h : Handlers σ) (op : Op)
    (s : EngineState σ) : EngineState σ :=
  match op with
  | Op.statOp p => statCallback fs h p s
  | Op.readdirOp p => readdirCallback fs h p s

/-- The element of a list at an index, if any. -/
def getIdx? {α : Type} : List α → Nat → Option α
  | [], _ => none
  | a :: _, 0 => some a
  | _ :: t, n + 1 => getIdx? t n

/-- The list with the element at an index removed (identity when the index
is out of range). -/
def removeIdx {α : Type} : List α → Nat → List α
  | [], _ => []
  | _ :: t, 0 => t
  | a :: t, n + 1 => a :: removeIdx t n

/-- One scheduler step: deliver the result of the `i`-th in-flight
operation and run its callback atomically.  `none` when there is no such
operation. -/
def stepAt {σ : Type} (fs : Fsys) (h : Handlers σ) (s : EngineState σ)
    (i : Nat) : Option (EngineState σ) :=
  (getIdx? s.pending i).map fun op =>
    stepOp fs h op { s with pending := removeIdx s.pending i }

/-- Run a schedule: a list of indices choosing which in-flight operation
resolves next.  `none` when the schedule names a missing operation. -/
def runSched {α ι : Type} (stp : α → ι → Option α) : α → List ι → Option α
  | s, [] => some s
  | s, i :: is => match stp s i with
    | none => none
    | some s' => runSched stp s' is

/-- The state at the start of an `eachFileOrDirectory(directory, ...)`
call: `onFileOrDirectory_(directory)` has incremented the counter and
issued the root `fs.stat`. -/
def initEngine {σ : Type} (x : σ) (root : String) : EngineState σ :=
  issueStat ⟨[], 0, [], [], [], [], x⟩ root

/-- A whole session of the engine under a given schedule. -/
def runEngine {σ : Type} (fs : Fsys) (h : Handlers σ) (x : σ) (root : String)
    (sch : List Nat) : Option (EngineState σ) :=
  runSched (stepAt fs h) (initEngine x root) sch

/-- `eachFileOrDirectory` with no-op caller handlers (the bare engine). -/
def trivialHandlers : Handlers Unit where
  onErr _ x := x
  onOk _ _ x := x
  onComplete _ _ x := x

/-- A bare `eachFileOrDirectory` session. -/
def runTraverse (fs : Fsys) (root : String) (sch : List Nat) :
    Option (EngineState Unit) :=
  runEngine fs trivialHandlers () root sch

/-! ## The sequential engine, `eachFileOrDirectorySync`

`eachFileOrDirectorySync` is plain mutual recursion between
`onFileOrDirectory_` (statSync, push, handler, recurse when directory) and
`onDirectory_` (readdirSync, recurse on every joined child).  A thrown
exception propagates to the caller; nothing catches it.  The embedding
returns the ordered lists of paths and stats the `fileHandler` saw, plus
the exception when one was thrown; `none` means the fuel ran out (the
source recursion need not terminate on a cyclic filesystem model). -/

/-- The observable outcome of a sequential traversal: the `fileHandler`
invocations (paths and stats, pushed in lockstep by the source) and the
exception that aborted the call, if any. -/
structure SyncResult where
  files : List String
  stats : List Stat
  error : Option IOErr
deriving DecidableEq

/-- `onDirectory_`'s `forEach` over the listed children, parametric in the
recursive visitor `v` (`onFileOrDirectory_`): visit each joined child path
in order; a thrown exception propagates immediately, so the remaining
siblings are never visited. -/
def syncChildrenOf (v : String → Option SyncResult) (p : String) :
    List String → Option SyncResult
  | [] => some ⟨[], [], none⟩
  | c :: cs =>
    match v (fullFilePath p c) with
    | none => none
    | some r =>
      match r.error with
      | some e => some ⟨r.files, r.stats, some e⟩
      | none =>
        match syncChildrenOf v p cs with
        | none => none
        | some r' => some ⟨r.files ++ r'.files, r.stats ++ r'.stats, r'.error⟩

/-- `onFileOrDirectory_` of `eachFileOrDirectorySync`: `statSync` the path
(a missing path throws `ENOENT` before any push), push path and stat,
invoke the handler, and recurse into the children when it is a
directory. -/
def syncVisit (fs : Fsys) : Nat → String → Option SyncResult
  | 0, _ => none
  | Nat.succ n, p =>
    match lookupFs fs p with
    | none => some ⟨[], [], some (IOErr.enoent p)⟩
    | some (FSNode.file c) => some ⟨[p], [statOf (FSNode.file c)], none⟩
    | some (FSNode.dir cs) =>
      match syncChildrenOf (syncVisit fs n) p cs with
      | none => none
      | some r => some ⟨p :: r.files, statOf (FSNode.dir cs) :: r.stats, r.error⟩

/-! ## The filter layers, `eachFile` and `eachFileMatching`

`eachFile` wraps the engine's `fileHandler`: errors are forwarded to the
caller's callback; successful entries are forwarded and accumulated only
when they are not directories.  Its completion wrapper receives the
engine's completion (whose error is always `null`) and delivers its own
accumulated arrays.  `eachFileMatching` additionally keeps only entries
whose full joined path satisfies the pattern; the regular expression is
modelled as a boolean predicate on the path string. -/

/-- The layer state of an `eachFile` or `eachFileMatching` session: its own
`files` / `stats` accumulation arrays, the trace of its caller's callback
invocations, and the trace of its caller's completion invocations. -/
structure FilterExt where
  files : List String
  stats : List Stat
  events : List Event
  completions : List (List String × List Stat)
deriving DecidableEq

/-- The handlers `eachFile` passes to `eachFileOrDirectory`. -/
def eachFileHandlers : Handlers FilterExt where
  onErr e x := { x with events := x.events ++ [Event.err e] }
  onOk f st x :=
    if st.isDirectory then x
    else { x with files := x.files ++ [f], stats := x.stats ++ [st],
                  events := x.events ++ [Event.ok f st] }
  onComplete _ _ x := { x with completions := x.completions ++ [(x.files, x.stats)] }

/-- An `eachFile(path, callback, completeHandler)` session. -/
def runEachFile (fs : Fsys) (root : String) (sch : List Nat) :
    Option (EngineState FilterExt) :=
  runEngine fs eachFileHandlers ⟨[], [], [], []⟩ root sch

/-- The handlers an `eachFileMatching(expression, path, ...)` session
effectively installs on the engine: the `eachFile` wrapper drops
directories, then the matching wrapper keeps the entry only when
`expression.test(file)` holds on the full joined path. -/
def eachFileMatchingHandlers (pat : String → Bool) : Handlers FilterExt where
  onErr e x := { x with events := x.events ++ [Event.err e] }
  onOk f st x :=
    if st.isDirectory then x
    else if pat f then
      { x with files := x.files ++ [f], stats := x.stats ++ [st],
               events := x.events ++ [Event.ok f st] }
    else x
  onComplete _ _ x := { x with completions := x.completions ++ [(x.files, x.stats)] }

/-- An `eachFileMatching(expression, path, ...)` session. -/
def runEachFileMatching (fs : Fsys) (pat : String → Bool) (root : String)
    (sch : List Nat) : Option (EngineState FilterExt) :=
  runEngine fs (eachFileMatchingHandlers pat) ⟨[], [], [], []⟩ root sch

/-! ## The reader layer, `readEachFileMatching`

`readEachFileMatching` installs on `eachFileMatching` a per-entry handler
that ignores its incoming error argument and immediately calls
`fs.readFile(file, ...)` — on an error delivery `file` is `undefined`,
modelled as `none`.  The `readFile` callbacks are themselves asynchronous
operations, scheduled independently of the traversal's stat/readdir
callbacks.  The completion wrapper fires when the underlying traversal
completes, delivering whatever the reader arrays hold at that moment. -/

/-- One recorded invocation of `readEachFileMatching`'s caller callback. -/
inductive REvent where
  | ok : String → Stat → String → REvent
  | err : IOErr → REvent
deriving DecidableEq

/-- The layer state of a `readEachFileMatching` session: the two inner
filter layers' accumulation arrays, the in-flight `fs.readFile` calls
(`none` is `readFile(undefined)`, issued after an error delivery), the
reader's own arrays, and the traces of its caller's callback and
completion invocations. -/
structure ReaderExt where
  efFiles : List String
  efStats : List Stat
  efmFiles : List String
  efmStats : List Stat
  pendingReads : List (Option (String × Stat))
  files : List String
  stats : List Stat
  contents : List String
  events : List REvent
  completions : List (List String × List Stat × List String)
deriving DecidableEq

/-- The handlers a `readEachFileMatching(expression, path, ...)` session
effectively installs on the engine: the `eachFile` wrapper drops
directories and accumulates, the matching wrapper filters by the pattern
and accumulates, and the reader wrapper issues `fs.readFile(file)` —
dropping the error argument on error deliveries, so it issues
`fs.readFile(undefined)` then. -/
def readerHandlers (pat : String → Bool) : Handlers ReaderExt where
  onErr _ x := { x with pendingReads := x.pendingReads ++ [none] }
  onOk f st x :=
    if st.isDirectory then x
    else
      let x1 := { x with efFiles := x.efFiles ++ [f], efStats := x.efStats ++ [st] }
      if pat f then
        { x1 with efmFiles := x1.efmFiles ++ [f], efmStats := x1.efmStats ++ [st],
                  pendingReads := x1.pendingReads ++ [some (f, st)] }
      else x1
  onComplete _ _ x :=
    { x with completions := x.completions ++ [(x.files, x.stats, x.contents)] }

/-- `fs.readFile`: `undefined` paths fail with the invalid-argument error,
missing paths with `ENOENT`, directories with `EISDIR`. -/
def readFileRes (fs : Fsys) : Option String → Except IOErr String
  | none => Except.error IOErr.invalidPath
  | some p =>
    match lookupFs fs p with
    | none => Except.error (IOErr.enoent p)
    | some (FSNode.file c) => Except.ok c
    | some (FSNode.dir _) => Except.error (IOErr.eisdir p)

/-- The body of the `fs.readFile` callback in `readEachFileMatching`: on
error invoke the caller's callback with it; on success push path, content
and the captured stat, then invoke the caller's callback. -/
def readCallback (fs : Fsys) (entry : Option (String × Stat)) (x : ReaderExt) :
    ReaderExt :=
  match readFileRes fs (entry.map Prod.fst) with
  | Except.error e => { x with events := x.events ++ [REvent.err e] }
  | Except.ok c =>
    match entry with
    | some (f, st) =>
      { x with files := x.files ++ [f], contents := x.contents ++ [c],
               stats := x.stats ++ [st],
               events := x.events ++ [REvent.ok f st c] }
    | none => x

/-- Deliver the result of the `j`-th in-flight `fs.readFile` call. -/
def readStepAt (fs : Fsys) (s : EngineState ReaderExt) (j : Nat) :
    Option (EngineState ReaderExt) :=
  (getIdx? s.ext.pendingReads j).map fun entry =>
    let x1 := { s.ext with pendingReads := removeIdx s.ext.pendingReads j }
    { s with ext := readCallback fs entry x1 }

/-- One scheduler step of a `readEachFileMatching` session: resolve either
a traversal operation (`Sum.inl`) or a `readFile` call (`Sum.inr`). -/
def readerStep (fs : Fsys) (pat : String → Bool) (s : EngineState ReaderExt) :
    Nat ⊕ Nat → Option (EngineState ReaderExt)
  | Sum.inl i => stepAt fs (readerHandlers pat) s i
  | Sum.inr j => readStepAt fs s j

/-- A whole `readEachFileMatching(expression, path, ...)` session under a
given schedule. -/
def runReader (fs : Fsys) (pat : String → Bool) (root : String)
    (sch : List (Nat ⊕ Nat)) : Option (EngineState ReaderExt) :=
  runSched (readerStep fs pat)
    (initEngine ⟨[], [], [], [], [], [], [], [], [], []⟩ root) sch

/-! ## Reachability

The paths a traversal from `root` is meant to visit: the root itself, and
for every reachable directory each joined child path. -/

/-- The set of paths reachable from the root by following directory
listings through `fullFilePath` joins. -/
inductive ReachPath (fs : Fsys) (root : String) : String → Prop where
  | root : ReachPath fs root root
  | child {p c cs} : ReachPath fs root p → lookupFs fs p = some (FSNode.dir cs) →
      c ∈ cs → ReachPath fs root (fullFilePath p c)

/-! ## Helper lemmas about the scheduling primitives -/

theorem getIdx?_mem {α : Type} {a : α} :
    ∀ {l : List α} {i : Nat}, getIdx? l i = some a → a ∈ l
  | [], _, h => by simp [getIdx?] at h
  | b :: t, 0, h => by
      simp [getIdx?] at h; simp [h]
  | _ :: t, i + 1, h => by
      simp [getIdx?] at h
      exact List.mem_cons_of_mem _ (getIdx?_mem h)

theorem removeIdx_length {α : Type} {a : α} :
    ∀ {l : List α} {i : Nat}, getIdx? l i = some a →
      (removeIdx l i).length + 1 = l.length
  | [], _, h => by simp [getIdx?] at h
  | b :: t, 0, _ => by simp [removeIdx]
  | b :: t, i + 1, h => by
      simp [getIdx?] at h
      simp [removeIdx, removeIdx_length h]

theorem mem_removeIdx_or {α : Type} {a : α} :
    ∀ (l : List α) (i : Nat), a ∈ l → a ∈ removeIdx l i ∨ getIdx? l i = some a
  | [], _, h => absurd h (List.not_mem_nil a)
  | b :: t, 0, h => by
      rcases List.mem_cons.mp h with rfl | ht
      · right; rfl
      · left; simpa [removeIdx]
  | b :: t, i + 1, h => by
      rcases List.mem_cons.mp h with rfl | ht
      · left; simp [removeIdx]
      · rcases mem_removeIdx_or t i ht with h1 | h1
        · left; simp [removeIdx, h1]
        · right; simpa [getIdx?]

theorem mem_of_mem_removeIdx {α : Type} {a : α} :
    ∀ {l : List α} {i : Nat}, a ∈ removeIdx l i → a ∈ l
  | [], _, h => by simp [removeIdx] at h
  | b :: t, 0, h => List.mem_cons_of_mem _ h
  | b :: t, i + 1, h => by
      rcases List.mem_cons.mp h with rfl | ht
      · exact List.mem_cons_self _ _
      · exact List.mem_cons_of_mem _ (mem_of_mem_removeIdx ht)

theorem runSched_append {α ι : Type} (stp : α → ι → Option α) :
    ∀ (l₁ l₂ : List ι) (s : α),
      runSched stp s (l₁ ++ l₂) =
        match runSched stp s l₁ with
        | none => none
        | some s' => runSched stp s' l₂
  | [], _, s => by simp [runSched]
  | i :: t, l₂, s => by
      simp only [List.cons_append, runSched]
      cases stp s i with
      | none => rfl
      | some s' => exact runSched_append stp t l₂ s'

/-- Invariant propagation along a schedule. -/
theorem runSched_inv {α ι : Type} {stp : α → ι → Option α} {P : α → Prop}
    (hstep : ∀ s i s', P s → stp s i = some s' → P s') :
    ∀ {sch : List ι} {s₀ s : α}, P s₀ → runSched stp s₀ sch = some s → P s
  | [], s₀, s, h0, hr => by
      simp [runSched] at hr; exact hr ▸ h0
  | i :: t, s₀, s, h0, hr => by
      simp only [runSched] at hr
      cases hm : stp s₀ i with
      | none => rw [hm] at hr; exact absurd hr (by simp)
      | some s₁ =>
          rw [hm] at hr
          exact runSched_inv hstep (hstep s₀ i s₁ h0 hm) hr

/-! ## Simp characterizations of the engine's transition pieces -/

theorem checkComplete_pending {σ : Type} (h : Handlers σ) (s : EngineState σ) :
    (checkComplete h s).pending = s.pending := by
  unfold checkComplete; split <;> rfl

theorem checkComplete_filesToCheck {σ : Type} (h : Handlers σ) (s : EngineState σ) :
    (checkComplete h s).filesToCheck = s.filesToCheck := by
  unfold checkComplete; split <;> rfl

theorem checkComplete_checkedFiles {σ : Type} (h : Handlers σ) (s : EngineState σ) :
    (checkComplete h s).checkedFiles = s.checkedFiles := by
  unfold checkComplete; split <;> rfl

theorem checkComplete_checkedStats {σ : Type} (h : Handlers σ) (s : EngineState σ) :
    (checkComplete h s).checkedStats = s.checkedStats := by
  unfold checkComplete; split <;> rfl

theorem checkComplete_events {σ : Type} (h : Handlers σ) (s : EngineState σ) :
    (checkComplete h s).events = s.events := by
  unfold checkComplete; split <;> rfl

theorem checkComplete_completions_pos {σ : Type} (h : Handlers σ)
    (s : EngineState σ) (h0 : s.filesToCheck ≠ 0) :
    (checkComplete h s).completions = s.completions := by
  unfold checkComplete; split
  · exact absurd (by assumption) h0
  · rfl

theorem checkComplete_completions_zero {σ : Type} (h : Handlers σ)
    (s : EngineState σ) (h0 : s.filesToCheck = 0) :
    (checkComplete h s).completions =
      s.completions ++ [(s.checkedFiles, s.checkedStats)] := by
  unfold checkComplete; split
  · rfl
  · exact absurd h0 (by assumption)

theorem foldl_issueStat {σ : Type} (f : String → String) :
    ∀ (cs : List String) (s : EngineState σ),
      cs.foldl (fun acc c => issueStat acc (f c)) s =
        { s with filesToCheck := s.filesToCheck + cs.length,
                 pending := s.pending ++ cs.map (fun c => Op.statOp (f c)) }
  | [], s => by simp
  | c :: t, s => by
      rcases s with ⟨pend, cnt, cf, cst, ev, comp, x⟩
      simp only [List.foldl_cons, List.map_cons, List.length_cons]
      rw [foldl_issueStat f t _]
      simp [issueStat, EngineState.mk.injEq, List.append_assoc]
      omega

theorem noErr_append_ok (l : List Event) (p : String) (st : Stat) :
    noErr (l ++ [Event.ok p st]) = noErr l := by
  simp [noErr, List.all_append]

theorem noErr_append_err (l : List Event) (e : IOErr) :
    noErr (l ++ [Event.err e]) = false := by
  simp [noErr, List.all_append]

theorem noErr_mem {l : List Event} (hl : noErr l = true) {e : IOErr} :
    Event.err e ∉ l := by
  intro hm
  have := List.all_eq_true.mp hl _ hm
  simp at this

theorem okPaths_append_ok (l : List Event) (p : String) (st : Stat) :
    okPaths (l ++ [Event.ok p st]) = okPaths l ++ [p] := by
  simp [okPaths, List.filterMap_append]

theorem okPaths_append_err (l : List Event) (e : IOErr) :
    okPaths (l ++ [Event.err e]) = okPaths l := by
  simp [okPaths, List.filterMap_append]

theorem okPairs_append_ok (l : List Event) (p : String) (st : Stat) :
    okPairs (l ++ [Event.ok p st]) = okPairs l ++ [(p, st)] := by
  simp [okPairs, List.filterMap_append]

theorem okPairs_append_err (l : List Event) (e : IOErr) :
    okPairs (l ++ [Event.err e]) = okPairs l := by
  simp [okPairs, List.filterMap_append]

/-! ## The session invariant of the concurrent engine

`EngInv` holds at every state reachable from `initEngine`, for every
filesystem, root and caller handlers.  Its fields capture:
the `filesToCheck` counter equals the number of in-flight operations;
every in-flight operation and accumulated path is reachable from the root;
stats are accumulated in lockstep with paths; the per-entry trace matches
the accumulation; the root's probe is in flight, failed, or accumulated;
every accumulated directory has its expansion in flight or all its children
probed/failed/accumulated; and the completion handler has fired at most
once, only with the accumulated arrays, only when nothing was in flight —
exactly once so far if additionally no error occurred. -/

/-- A path's probe has been issued and answered or is still in flight:
its `fs.stat` is pending, or its handler saw an error naming it, or it was
accumulated. -/
def statResolvedL (pend : List Op) (ev : List Event) (cf : List String)
    (q : String) : Prop :=
  Op.statOp q ∈ pend ∨ (∃ e, Event.err e ∈ ev ∧ errPathOf e = some q) ∨ q ∈ cf

/-- `statResolvedL` on a session state. -/
def statResolved {σ : Type} (s : EngineState σ) (q : String) : Prop :=
  statResolvedL s.pending s.events s.checkedFiles q

/-- The inductive invariant of a concurrent traversal session. -/
structure EngInv (fs : Fsys) (root : String) {σ : Type} (s : EngineState σ) :
    Prop where
  counter_eq : s.filesToCheck = s.pending.length
  pending_reach : ∀ op ∈ s.pending, ReachPath fs root op.path
  checked_reach : ∀ p ∈ s.checkedFiles, ReachPath fs root p
  stats_eq : s.checkedStats = s.checkedFiles.map (statAt fs)
  ok_paths : okPaths s.events = s.checkedFiles
  ok_pairs : okPairs s.events = s.checkedFiles.zip s.checkedStats
  root_res : statResolved s root
  dir_exp : ∀ p cs, p ∈ s.checkedFiles → lookupFs fs p = some (FSNode.dir cs) →
    Op.readdirOp p ∈ s.pending ∨ ∀ c ∈ cs, statResolved s (fullFilePath p c)
  comp_char : s.completions = [] ∨
    (s.completions = [(s.checkedFiles, s.checkedStats)] ∧ s.pending = [])
  comp_noerr : noErr s.events = true → (s.completions = [] ↔ s.pending ≠ [])

theorem engInv_init {σ : Type} (fs : Fsys) (root : String) (x : σ) :
    EngInv fs root (initEngine x root) := by
  refine { counter_eq := rfl, pending_reach := ?_, checked_reach := ?_,
           stats_eq := rfl, ok_paths := rfl, ok_pairs := rfl, root_res := ?_,
           dir_exp := ?_, comp_char := Or.inl rfl, comp_noerr := ?_ }
  · intro op hop
    simp [initEngine, issueStat] at hop
    simp [hop, Op.path]
    exact ReachPath.root
  · intro p hp; simp [initEngine, issueStat] at hp
  · exact Or.inl (by simp [initEngine, issueStat])
  · intro p cs hp; simp [initEngine, issueStat] at hp
  · intro _; simp [initEngine, issueStat]

/-- Resolvedness survives a step: the removed operation either was not the
probe of `q`, or the step itself discharged it (`hstep`). -/
theorem statResolvedL_step {pend : List Op} {i : Nat} {op : Op}
    (hop : getIdx? pend i = some op) (extra : List Op)
    (ev' : List Event) (cf' : List String) {ev : List Event} {cf : List String}
    (hev : ∀ e, Event.err e ∈ ev → Event.err e ∈ ev')
    (hcf : ∀ p, p ∈ cf → p ∈ cf')
    (hstep : ∀ q, op = Op.statOp q →
      (∃ e, Event.err e ∈ ev' ∧ errPathOf e = some q) ∨ q ∈ cf')
    (q : String) (hq : statResolvedL pend ev cf q) :
    statResolvedL (removeIdx pend i ++ extra) ev' cf' q := by
  rcases hq with hq | ⟨e, he, hpth⟩ | hq
  · rcases mem_removeIdx_or _ i hq with h1 | h1
    · exact Or.inl (List.mem_append_left _ h1)
    · rw [hop] at h1
      injection h1 with h1
      rcases hstep q h1 with h2 | h2
      · exact Or.inr (Or.inl h2)
      · exact Or.inr (Or.inr h2)
  · exact Or.inr (Or.inl ⟨e, hev e he, hpth⟩)
  · exact Or.inr (Or.inr (hcf q hq))

/-- A pending `readdir` distinct from the stepped operation survives the
step. -/
theorem readdir_mem_step {pend : List Op} {i : Nat} {op : Op}
    (hop : getIdx? pend i = some op) (extra : List Op) {p : String}
    (hne : op ≠ Op.readdirOp p) (hmem : Op.readdirOp p ∈ pend) :
    Op.readdirOp p ∈ removeIdx pend i ++ extra := by
  rcases mem_removeIdx_or _ i hmem with h1 | h1
  · exact List.mem_append_left _ h1
  · rw [hop] at h1
    injection h1 with h1
    exact absurd h1 hne

theorem statResolved_checkComplete {σ : Type} (h : Handlers σ)
    (s : EngineState σ) (q : String) :
    statResolved (checkComplete h s) q ↔ statResolved s q := by
  unfold statResolved statResolvedL
  rw [checkComplete_pending, checkComplete_events, checkComplete_checkedFiles]

/-- `checkComplete_` establishes the full invariant from the non-completion
fields, when the completion handler has not fired yet. -/
theorem engInv_checkComplete {σ : Type} {fs : Fsys} {root : String}
    {h : Handlers σ} {s : EngineState σ}
    (hcnt : s.filesToCheck = s.pending.length)
    (hpr : ∀ op ∈ s.pending, ReachPath fs root op.path)
    (hcr : ∀ p ∈ s.checkedFiles, ReachPath fs root p)
    (hst : s.checkedStats = s.checkedFiles.map (statAt fs))
    (hok : okPaths s.events = s.checkedFiles)
    (hokp : okPairs s.events = s.checkedFiles.zip s.checkedStats)
    (hroot : statResolved s root)
    (hdir : ∀ p cs, p ∈ s.checkedFiles → lookupFs fs p = some (FSNode.dir cs) →
      Op.readdirOp p ∈ s.pending ∨ ∀ c ∈ cs, statResolved s (fullFilePath p c))
    (hcomp : s.completions = []) :
    EngInv fs root (checkComplete h s) := by
  have hpend : (checkComplete h s).pending = s.pending := checkComplete_pending h s
  refine { counter_eq := ?_, pending_reach := ?_, checked_reach := ?_,
           stats_eq := ?_, ok_paths := ?_, ok_pairs := ?_, root_res := ?_,
           dir_exp := ?_, comp_char := ?_, comp_noerr := ?_ }
  · rw [checkComplete_filesToCheck, hpend]; exact hcnt
  · rw [hpend]; exact hpr
  · rw [checkComplete_checkedFiles]; exact hcr
  · rw [checkComplete_checkedStats, checkComplete_checkedFiles]; exact hst
  · rw [checkComplete_events, checkComplete_checkedFiles]; exact hok
  · rw [checkComplete_events, checkComplete_checkedFiles, checkComplete_checkedStats]
    exact hokp
  · exact (statResolved_checkComplete h s root).mpr hroot
  · rw [checkComplete_checkedFiles, hpend]
    intro p cs hp hl
    rcases hdir p cs hp hl with h1 | h1
    · exact Or.inl h1
    · exact Or.inr fun c hc => (statResolved_checkComplete h s _).mpr (h1 c hc)
  · by_cases hz : s.filesToCheck = 0
    · refine Or.inr ⟨?_, ?_⟩
      · rw [checkComplete_completions_zero h s hz, checkComplete_checkedFiles,
            checkComplete_checkedStats, hcomp]
        simp
      · rw [hpend]
        exact List.length_eq_zero.mp (by rw [← hcnt]; exact hz)
    · rw [checkComplete_completions_pos h s hz]; exact Or.inl hcomp
  · intro _
    by_cases hz : s.filesToCheck = 0
    · rw [checkComplete_completions_zero h s hz, hpend, hcomp]
      have : s.pending = [] := List.length_eq_zero.mp (by rw [← hcnt]; exact hz)
      simp [this]
    · rw [checkComplete_completions_pos h s hz, hpend, hcomp]
      have : s.pending ≠ [] := by
        intro h0
        exact hz (by rw [hcnt, h0]; rfl)
      simp [this]

/-- One scheduler step preserves the session invariant. -/
theorem stepAt_preserves {σ : Type} {fs : Fsys} {root : String} {h : Handlers σ}
    {s s' : EngineState σ} {i : Nat}
    (inv : EngInv fs root s) (hs : stepAt fs h s i = some s') :
    EngInv fs root s' := by
  obtain ⟨pend, cnt, cf, cst, ev, comp, x⟩ := s
  obtain ⟨hcnt, hpr, hcr, hst, hok, hokp, hroot, hdir, hcomp, hnoe⟩ := inv
  rw [stepAt, Option.map_eq_some'] at hs
  obtain ⟨op, hop, hs⟩ := hs
  subst hs
  simp only at hop hcnt hpr hcr hst hok hokp hroot hdir hcomp hnoe
  have hmem_op : op ∈ pend := getIdx?_mem hop
  have hlen : (removeIdx pend i).length + 1 = pend.length := removeIdx_length hop
  have hpend_ne : pend ≠ [] := List.ne_nil_of_mem hmem_op
  have hcomp0 : comp = [] := by
    rcases hcomp with h0 | ⟨_, h0⟩
    · exact h0
    · exact absurd h0 hpend_ne
  subst hcomp0
  cases op with
  | statOp p =>
    have hreach_p : ReachPath fs root p := hpr (Op.statOp p) hmem_op
    cases hl : lookupFs fs p with
    | none =>
      simp only [stepOp, statCallback, hl]
      have hres : ∀ q, statResolvedL pend ev cf q →
          statResolvedL (removeIdx pend i)
            (ev ++ [Event.err (IOErr.enoent p)]) cf q := by
        intro q hq
        have h2 := statResolvedL_step hop []
          (ev ++ [Event.err (IOErr.enoent p)]) cf
          (fun e he => List.mem_append_left _ he) (fun r hr => hr)
          (fun q' hq' => by
            injection hq' with hq'
            subst hq'
            exact Or.inl ⟨IOErr.enoent p, List.mem_append_right _ (by simp), rfl⟩)
          q hq
        simpa using h2
      refine { counter_eq := ?_, pending_reach := ?_, checked_reach := hcr,
               stats_eq := hst, ok_paths := ?_, ok_pairs := ?_, root_res := ?_,
               dir_exp := ?_, comp_char := Or.inl rfl, comp_noerr := ?_ }
      · simp only; omega
      · exact fun op' hop' => hpr op' (mem_of_mem_removeIdx hop')
      · simp only [okPaths_append_err]; exact hok
      · simp only [okPairs_append_err]; exact hokp
      · exact hres root hroot
      · intro p' cs' hp' hl'
        rcases hdir p' cs' hp' hl' with h1 | h1
        · refine Or.inl ?_
          have h2 := readdir_mem_step hop [] (by
            intro h0
            injection h0) h1
          simpa using h2
        · exact Or.inr fun c hc => hres _ (h1 c hc)
      · intro hne'
        simp [noErr_append_err] at hne'
    | some nd =>
      cases nd with
      | file c =>
        simp only [stepOp, statCallback, hl, statOf, Stat.isDirectory,
          Bool.false_eq_true, if_false]
        apply engInv_checkComplete
        · simp only; omega
        · exact fun op' hop' => hpr op' (mem_of_mem_removeIdx hop')
        · intro p' hp'
          rcases List.mem_append.mp hp' with h1 | h1
          · exact hcr p' h1
          · rw [List.mem_singleton.mp h1]; exact hreach_p
        · simp [hst, statAt, hl, statOf]
        · simp only [okPaths_append_ok, hok]
        · rw [okPairs_append_ok, hokp,
            List.zip_append (by rw [hst, List.length_map])]
          rfl
        · have h2 := statResolvedL_step hop []
            (ev ++ [Event.ok p (statOf (FSNode.file c))]) (cf ++ [p])
            (fun e he => List.mem_append_left _ he)
            (fun r hr => List.mem_append_left _ hr)
            (fun q' hq' => by
              injection hq' with hq'
              subst hq'
              exact Or.inr (List.mem_append_right _ (by simp)))
            root hroot
          simpa using h2
        · intro p' cs' hp' hl'
          rcases List.mem_append.mp hp' with h1 | h1
          · rcases hdir p' cs' h1 hl' with h2 | h2
            · refine Or.inl ?_
              have h3 := readdir_mem_step hop [] (by
                intro h0
                injection h0) h2
              simpa using h3
            · refine Or.inr fun c' hc' => ?_
              have h3 := statResolvedL_step hop []
                (ev ++ [Event.ok p (statOf (FSNode.file c))]) (cf ++ [p])
                (fun e he => List.mem_append_left _ he)
                (fun r hr => List.mem_append_left _ hr)
                (fun q' hq' => by
                  injection hq' with hq'
                  subst hq'
                  exact Or.inr (List.mem_append_right _ (by simp)))
                _ (h2 c' hc')
              simpa using h3
          · rw [List.mem_singleton.mp h1, hl] at hl'
            injection hl' with hl'
            cases hl'
        · rfl
      | dir cs =>
        simp only [stepOp, statCallback, hl, statOf, Stat.isDirectory, if_pos]
        have hres : ∀ q, statResolvedL pend ev cf q →
            statResolvedL (removeIdx pend i ++ [Op.readdirOp p])
              (ev ++ [Event.ok p ⟨true⟩]) (cf ++ [p]) q := by
          intro q hq
          exact statResolvedL_step hop [Op.readdirOp p]
            (ev ++ [Event.ok p ⟨true⟩]) (cf ++ [p])
            (fun e he => List.mem_append_left _ he)
            (fun r hr => List.mem_append_left _ hr)
            (fun q' hq' => by
              injection hq' with hq'
              subst hq'
              exact Or.inr (List.mem_append_right _ (by simp)))
            q hq
        refine { counter_eq := ?_, pending_reach := ?_, checked_reach := ?_,
                 stats_eq := ?_, ok_paths := ?_, ok_pairs := ?_,
                 root_res := hres root hroot,
                 dir_exp := ?_, comp_char := Or.inl rfl, comp_noerr := ?_ }
        · simp only [List.length_append, List.length_singleton]; omega
        · intro op' hop'
          rcases List.mem_append.mp hop' with h1 | h1
          · exact hpr op' (mem_of_mem_removeIdx h1)
          · rw [List.mem_singleton.mp h1]; exact hreach_p
        · intro p' hp'
          rcases List.mem_append.mp hp' with h1 | h1
          · exact hcr p' h1
          · rw [List.mem_singleton.mp h1]; exact hreach_p
        · simp [hst, statAt, hl, statOf]
        · simp only [okPaths_append_ok, hok]
        · rw [okPairs_append_ok, hokp,
            List.zip_append (by rw [hst, List.length_map])]
          rfl
        · intro p' cs' hp' hl'
          rcases List.mem_append.mp hp' with h1 | h1
          · rcases hdir p' cs' h1 hl' with h2 | h2
            · exact Or.inl (readdir_mem_step hop [Op.readdirOp p] (by
                intro h0
                injection h0) h2)
            · exact Or.inr fun c' hc' => hres _ (h2 c' hc')
          · rw [List.mem_singleton.mp h1] at hl' ⊢
            exact Or.inl (List.mem_append_right _ (by simp))
        · intro _; simp
  | readdirOp p =>
    have hreach_p : ReachPath fs root p := hpr (Op.readdirOp p) hmem_op
    cases hl : lookupFs fs p with
    | none =>
      simp only [stepOp, readdirCallback, hl]
      have hres : ∀ q, statResolvedL pend ev cf q →
          statResolvedL (removeIdx pend i)
            (ev ++ [Event.err (IOErr.enoent p)]) cf q := by
        intro q hq
        have h2 := statResolvedL_step hop []
          (ev ++ [Event.err (IOErr.enoent p)]) cf
          (fun e he => List.mem_append_left _ he) (fun r hr => hr)
          (fun q' hq' => Op.noConfusion hq')
          q hq
        simpa using h2
      refine { counter_eq := ?_, pending_reach := ?_, checked_reach := hcr,
               stats_eq := hst, ok_paths := ?_, ok_pairs := ?_,
               root_res := hres root hroot,
               dir_exp := ?_, comp_char := Or.inl rfl, comp_noerr := ?_ }
      · simp only; omega
      · exact fun op' hop' => hpr op' (mem_of_mem_removeIdx hop')
      · simp only [okPaths_append_err]; exact hok
      · simp only [okPairs_append_err]; exact hokp
      · intro p' cs' hp' hl'
        rcases hdir p' cs' hp' hl' with h1 | h1
        · rcases mem_removeIdx_or _ i h1 with h2 | h2
          · exact Or.inl h2
          · rw [hop] at h2
            injection h2 with h2
            injection h2 with h2
            rw [← h2, hl] at hl'
            cases hl'
        · exact Or.inr fun c hc => hres _ (h1 c hc)
      · intro hne'
        simp [noErr_append_err] at hne'
    | some nd =>
      cases nd with
      | file c =>
        simp only [stepOp, readdirCallback, hl]
        have hres : ∀ q, statResolvedL pend ev cf q →
            statResolvedL (removeIdx pend i)
              (ev ++ [Event.err (IOErr.enotdir p)]) cf q := by
          intro q hq
          have h2 := statResolvedL_step hop []
            (ev ++ [Event.err (IOErr.enotdir p)]) cf
            (fun e he => List.mem_append_left _ he) (fun r hr => hr)
            (fun q' hq' => Op.noConfusion hq')
            q hq
          simpa using h2
        refine { counter_eq := ?_, pending_reach := ?_, checked_reach := hcr,
                 stats_eq := hst, ok_paths := ?_, ok_pairs := ?_,
                 root_res := hres root hroot,
                 dir_exp := ?_, comp_char := Or.inl rfl, comp_noerr := ?_ }
        · simp only; omega
        · exact fun op' hop' => hpr op' (mem_of_mem_removeIdx hop')
        · simp only [okPaths_append_err]; exact hok
        · simp only [okPairs_append_err]; exact hokp
        · intro p' cs' hp' hl'
          rcases hdir p' cs' hp' hl' with h1 | h1
          · rcases mem_removeIdx_or _ i h1 with h2 | h2
            · exact Or.inl h2
            · rw [hop] at h2
              injection h2 with h2
              injection h2 with h2
              rw [← h2, hl] at hl'
              injection hl' with hl'
              cases hl'
          · exact Or.inr fun c' hc' => hres _ (h1 c' hc')
        · intro hne'
          simp [noErr_append_err] at hne'
      | dir cs =>
        simp only [stepOp, readdirCallback, hl,
          foldl_issueStat (fullFilePath p) cs]
        apply engInv_checkComplete
        · simp only [List.length_append, List.length_map]; omega
        · intro op' hop'
          rcases List.mem_append.mp hop' with h1 | h1
          · exact hpr op' (mem_of_mem_removeIdx h1)
          · obtain ⟨c, hc, rfl⟩ := List.mem_map.mp h1
            exact ReachPath.child hreach_p hl hc
        · exact hcr
        · exact hst
        · exact hok
        · exact hokp
        · exact statResolvedL_step hop
            (cs.map fun c => Op.statOp (fullFilePath p c)) ev cf
            (fun e he => he) (fun r hr => hr)
            (fun q' hq' => Op.noConfusion hq')
            root hroot
        · intro p' cs' hp' hl'
          rcases hdir p' cs' hp' hl' with h1 | h1
          · rcases mem_removeIdx_or _ i h1 with h2 | h2
            · exact Or.inl (List.mem_append_left _ h2)
            · rw [hop] at h2
              injection h2 with h2
              injection h2 with h2
              rw [← h2, hl] at hl'
              injection hl' with hl'
              injection hl' with hl'
              refine Or.inr fun c' hc' => Or.inl ?_
              refine List.mem_append_right _ ?_
              rw [← h2]
              refine List.mem_map.mpr ⟨c', ?_, rfl⟩
              rw [hl']
              exact hc'
          · refine Or.inr fun c' hc' => ?_
            exact statResolvedL_step hop
              (cs.map fun c => Op.statOp (fullFilePath p c)) ev cf
              (fun e he => he) (fun r hr => hr)
              (fun q' hq' => Op.noConfusion hq')
              _ (h1 c' hc')
        · rfl

/-- The invariant holds at every state a schedule can produce. -/
theorem runEngine_inv {σ : Type} {fs : Fsys} {h : Handlers σ} {x : σ}
    {root : String} {sch : List Nat} {s : EngineState σ}
    (hr : runEngine fs h x root sch = some s) : EngInv fs root s :=
  runSched_inv (fun _ _ _ inv hs => stepAt_preserves inv hs)
    (engInv_init fs root x) hr

/-- No step is possible once nothing is in flight. -/
theorem stepAt_terminal {σ : Type} (fs : Fsys) (h : Handlers σ)
    {s : EngineState σ} (hterm : s.pending = []) (i : Nat) :
    stepAt fs h s i = none := by
  rw [stepAt, hterm]
  cases i <;> rfl

/-- A session that has reached the terminal state stays there: any further
schedule leaves the state unchanged (or names a missing operation). -/
theorem runSched_terminal {σ : Type} {fs : Fsys} {h : Handlers σ}
    {s s' : EngineState σ} {sch : List Nat} (hterm : s.pending = [])
    (hr : runSched (stepAt fs h) s sch = some s') : s' = s := by
  cases sch with
  | nil =>
    simp only [runSched] at hr
    injection hr with hr
    exact hr.symm
  | cons i t =>
    rw [runSched, stepAt_terminal fs h hterm i] at hr
    exact absurd hr (by simp)

/-- In a terminal error-free session state, the accumulated paths are
exactly the reachable ones. -/
theorem terminal_checked_iff_reach {σ : Type} {fs : Fsys} {root : String}
    {s : EngineState σ} (inv : EngInv fs root s) (hterm : s.pending = [])
    (hne : noErr s.events = true) :
    ∀ q, q ∈ s.checkedFiles ↔ ReachPath fs root q := by
  intro q
  constructor
  · exact inv.checked_reach q
  · intro hq
    induction hq with
    | root =>
      rcases inv.root_res with h1 | ⟨e, he, _⟩ | h1
      · rw [hterm] at h1; cases h1
      · exact absurd he (noErr_mem hne)
      · exact h1
    | child hp hl hc ih =>
      rcases inv.dir_exp _ _ ih hl with h1 | h1
      · rw [hterm] at h1; cases h1
      · rcases h1 _ hc with h2 | ⟨e, he, _⟩ | h2
        · rw [hterm] at h2; cases h2
        · exact absurd he (noErr_mem hne)
        · exact h2

/-! ## Properties of the sequential traversal -/

/-- A successful sequential traversal visits its argument first. -/
theorem syncVisit_mem {fs : Fsys} {n : Nat} {p : String} {r : SyncResult}
    (h : syncVisit fs n p = some r) (hne : r.error = none) : p ∈ r.files := by
  cases n with
  | zero => rw [syncVisit] at h; cases h
  | succ n =>
    rw [syncVisit] at h
    cases hl : lookupFs fs p with
    | none =>
      rw [hl] at h
      injection h with h
      rw [← h] at hne
      cases hne
    | some nd =>
      cases nd with
      | file c =>
        rw [hl] at h
        injection h with h
        rw [← h]
        simp
      | dir cs =>
        rw [hl] at h
        simp only at h
        cases hc : syncChildrenOf (syncVisit fs n) p cs with
        | none => rw [hc] at h; simp at h
        | some rc =>
          rw [hc] at h
          simp only at h
          injection h with h
          rw [← h]
          simp

/-- The sequential traversal accumulates stats in lockstep with paths:
the i-th stat is the stat of the i-th path. -/
theorem syncVisit_stats (fs : Fsys) :
    ∀ n, (∀ p r, syncVisit fs n p = some r →
            r.stats = r.files.map (statAt fs))
       ∧ (∀ p cs r, syncChildrenOf (syncVisit fs n) p cs = some r →
            r.stats = r.files.map (statAt fs)) := by
  intro n
  induction n with
  | zero =>
    constructor
    · intro p r h; rw [syncVisit] at h; cases h
    · intro p cs r h
      cases cs with
      | nil =>
        rw [syncChildrenOf] at h
        injection h with h
        rw [← h]; rfl
      | cons c t =>
        rw [syncChildrenOf, syncVisit] at h
        cases h
  | succ n ih =>
    have hv : ∀ p r, syncVisit fs (n + 1) p = some r →
        r.stats = r.files.map (statAt fs) := by
      intro p r h
      rw [syncVisit] at h
      cases hl : lookupFs fs p with
      | none =>
        rw [hl] at h
        injection h with h
        rw [← h]; rfl
      | some nd =>
        cases nd with
        | file c =>
          rw [hl] at h
          injection h with h
          rw [← h]
          simp [statAt, hl, statOf]
        | dir cs =>
          rw [hl] at h
          simp only at h
          cases hc : syncChildrenOf (syncVisit fs n) p cs with
          | none => rw [hc] at h; simp at h
          | some rc =>
            rw [hc] at h
            simp only at h
            injection h with h
            rw [← h]
            simp [ih.2 p cs rc hc, statAt, hl, statOf]
    refine ⟨hv, ?_⟩
    intro p cs
    induction cs with
    | nil =>
      intro r h
      rw [syncChildrenOf] at h
      injection h with h
      rw [← h]; rfl
    | cons c t iht =>
      intro r h
      rw [syncChildrenOf] at h
      cases hc : syncVisit fs (n + 1) (fullFilePath p c) with
      | none => rw [hc] at h; simp at h
      | some rc =>
        rw [hc] at h
        simp only at h
        cases he : rc.error with
        | some e =>
          rw [he] at h
          simp only at h
          injection h with h
          rw [← h]
          simpa using hv _ _ hc
        | none =>
          rw [he] at h
          simp only at h
          cases ht : syncChildrenOf (syncVisit fs (n + 1)) p t with
          | none => rw [ht] at h; simp at h
          | some rt =>
            rw [ht] at h
            simp only at h
            injection h with h
            rw [← h]
            simp [hv _ _ hc, iht rt ht]

/-- Every path a sequential traversal visits is reachable from its
starting point. -/
theorem syncVisit_sound (fs : Fsys) (rt : String) :
    ∀ n, (∀ p r, syncVisit fs n p = some r → ReachPath fs rt p →
            ∀ q, q ∈ r.files → ReachPath fs rt q)
       ∧ (∀ p csf cs r, syncChildrenOf (syncVisit fs n) p cs = some r →
            lookupFs fs p = some (FSNode.dir csf) → (∀ c ∈ cs, c ∈ csf) →
            ReachPath fs rt p → ∀ q, q ∈ r.files → ReachPath fs rt q) := by
  intro n
  induction n with
  | zero =>
    constructor
    · intro p r h; rw [syncVisit] at h; cases h
    · intro p csf cs r h _ _ _
      cases cs with
      | nil =>
        rw [syncChildrenOf] at h
        injection h with h
        rw [← h]
        intro q hq; simp at hq
      | cons c t =>
        rw [syncChildrenOf, syncVisit] at h
        simp at h
  | succ n ih =>
    have hv : ∀ p r, syncVisit fs (n + 1) p = some r → ReachPath fs rt p →
        ∀ q, q ∈ r.files → ReachPath fs rt q := by
      intro p r h hp
      rw [syncVisit] at h
      cases hl : lookupFs fs p with
      | none =>
        rw [hl] at h
        injection h with h
        rw [← h]
        intro q hq; simp at hq
      | some nd =>
        cases nd with
        | file c =>
          rw [hl] at h
          injection h with h
          rw [← h]
          intro q hq
          simp at hq
          rw [hq]; exact hp
        | dir cs =>
          rw [hl] at h
          simp only at h
          cases hc : syncChildrenOf (syncVisit fs n) p cs with
          | none => rw [hc] at h; simp at h
          | some rc =>
            rw [hc] at h
            simp only at h
            injection h with h
            rw [← h]
            intro q hq
            rcases List.mem_cons.mp hq with rfl | hq
            · exact hp
            · exact ih.2 p cs cs rc hc hl (fun c hcm => hcm) hp q hq
    refine ⟨hv, ?_⟩
    intro p csf cs
    induction cs with
    | nil =>
      intro r h _ _ _
      rw [syncChildrenOf] at h
      injection h with h
      rw [← h]
      intro q hq; simp at hq
    | cons c t iht =>
      intro r h hlp hsub hp
      rw [syncChildrenOf] at h
      cases hc : syncVisit fs (n + 1) (fullFilePath p c) with
      | none => rw [hc] at h; simp at h
      | some rc =>
        rw [hc] at h
        simp only at h
        have hreach_c : ReachPath fs rt (fullFilePath p c) :=
          ReachPath.child hp hlp (hsub c (List.mem_cons_self c t))
        cases he : rc.error with
        | some e =>
          rw [he] at h
          simp only at h
          injection h with h
          rw [← h]
          intro q hq
          exact hv _ _ hc hreach_c q hq
        | none =>
          rw [he] at h
          simp only at h
          cases ht : syncChildrenOf (syncVisit fs (n + 1)) p t with
          | none => rw [ht] at h; simp at h
          | some rt' =>
            rw [ht] at h
            simp only at h
            injection h with h
            rw [← h]
            intro q hq
            rcases List.mem_append.mp hq with hq | hq
            · exact hv _ _ hc hreach_c q hq
            · exact iht rt' ht hlp
                (fun c' hc' => hsub c' (List.mem_cons_of_mem c hc')) hp q hq

/-- A successful error-free sequential traversal's visited set is closed
under taking children of visited directories. -/
theorem syncVisit_closed (fs : Fsys) :
    ∀ n, (∀ p r, syncVisit fs n p = some r → r.error = none →
            ∀ q cs', q ∈ r.files → lookupFs fs q = some (FSNode.dir cs') →
              ∀ c ∈ cs', fullFilePath q c ∈ r.files)
       ∧ (∀ p cs r, syncChildrenOf (syncVisit fs n) p cs = some r → r.error = none →
            (∀ c ∈ cs, fullFilePath p c ∈ r.files) ∧
            (∀ q cs', q ∈ r.files → lookupFs fs q = some (FSNode.dir cs') →
              ∀ c ∈ cs', fullFilePath q c ∈ r.files)) := by
  intro n
  induction n with
  | zero =>
    constructor
    · intro p r h; rw [syncVisit] at h; cases h
    · intro p cs r h _
      cases cs with
      | nil =>
        rw [syncChildrenOf] at h
        injection h with h
        rw [← h]
        constructor
        · intro c hc; simp at hc
        · intro q cs' hq; simp at hq
      | cons c t =>
        rw [syncChildrenOf, syncVisit] at h
        simp at h
  | succ n ih =>
    have hv : ∀ p r, syncVisit fs (n + 1) p = some r → r.error = none →
        ∀ q cs', q ∈ r.files → lookupFs fs q = some (FSNode.dir cs') →
          ∀ c ∈ cs', fullFilePath q c ∈ r.files := by
      intro p r h hne
      rw [syncVisit] at h
      cases hl : lookupFs fs p with
      | none =>
        rw [hl] at h
        injection h with h
        rw [← h] at hne
        cases hne
      | some nd =>
        cases nd with
        | file c =>
          rw [hl] at h
          injection h with h
          rw [← h]
          intro q cs' hq hlq
          simp at hq
          rw [hq] at hlq
          rw [hl] at hlq
          injection hlq with hlq
          cases hlq
        | dir cs =>
          rw [hl] at h
          simp only at h
          cases hc : syncChildrenOf (syncVisit fs n) p cs with
          | none => rw [hc] at h; simp at h
          | some rc =>
            rw [hc] at h
            simp only at h
            injection h with h
            rw [← h] at hne ⊢
            simp only at hne
            obtain ⟨hmemc, hclo⟩ := ih.2 p cs rc hc hne
            intro q cs' hq hlq c' hc'
            rcases List.mem_cons.mp hq with rfl | hq
            · rw [hl] at hlq
              injection hlq with hlq
              injection hlq with hlq
              exact List.mem_cons_of_mem _ (hmemc c' (hlq ▸ hc'))
            · exact List.mem_cons_of_mem _ (hclo q cs' hq hlq c' hc')
    refine ⟨hv, ?_⟩
    intro p cs
    induction cs with
    | nil =>
      intro r h _
      rw [syncChildrenOf] at h
      injection h with h
      rw [← h]
      constructor
      · intro c hc; simp at hc
      · intro q cs' hq; simp at hq
    | cons c t iht =>
      intro r h hne
      rw [syncChildrenOf] at h
      cases hc : syncVisit fs (n + 1) (fullFilePath p c) with
      | none => rw [hc] at h; simp at h
      | some rc =>
        rw [hc] at h
        simp only at h
        cases he : rc.error with
        | some e =>
          rw [he] at h
          simp only at h
          injection h with h
          rw [← h] at hne
          cases hne
        | none =>
          rw [he] at h
          simp only at h
          cases ht : syncChildrenOf (syncVisit fs (n + 1)) p t with
          | none => rw [ht] at h; simp at h
          | some rt' =>
            rw [ht] at h
            simp only at h
            injection h with h
            rw [← h] at hne ⊢
            simp only at hne
            obtain ⟨hmt, hct⟩ := iht rt' ht hne
            have hmc : fullFilePath p c ∈ rc.files := syncVisit_mem hc he
            constructor
            · intro c' hc'
              rcases List.mem_cons.mp hc' with rfl | hc'
              · exact List.mem_append_left _ hmc
              · exact List.mem_append_right _ (hmt c' hc')
            · intro q cs' hq hlq c' hc'
              rcases List.mem_append.mp hq with hq | hq
              · exact List.mem_append_left _ (hv _ _ hc he q cs' hq hlq c' hc')
              · exact List.mem_append_right _ (hct q cs' hq hlq c' hc')

/-! ## The layer state as a replay of the engine's traces

Every caller handler is invoked exactly when the engine records the
corresponding trace entry, so the layer state always equals the handlers
folded over the recorded traces.  This reduces each layer's accumulation
arrays to pure functions of the engine events. -/

/-- Fold the per-entry handlers over an event trace. -/
def replayEvents {σ : Type} (h : Handlers σ) : σ → List Event → σ
  | x, [] => x
  | x, Event.ok p st :: t => replayEvents h (h.onOk p st x) t
  | x, Event.err e :: t => replayEvents h (h.onErr e x) t

/-- Fold all handlers over the event and completion traces. -/
def replayAll {σ : Type} (h : Handlers σ) (x : σ) (ev : List Event)
    (comps : List (List String × List Stat)) : σ :=
  comps.foldl (fun y c => h.onComplete c.1 c.2 y) (replayEvents h x ev)

theorem replayEvents_append {σ : Type} (h : Handlers σ) :
    ∀ (l₁ l₂ : List Event) (x : σ),
      replayEvents h x (l₁ ++ l₂) = replayEvents h (replayEvents h x l₁) l₂
  | [], _, _ => rfl
  | Event.ok p st :: t, l₂, x => by
    simp only [List.cons_append, replayEvents]
    exact replayEvents_append h t l₂ (h.onOk p st x)
  | Event.err e :: t, l₂, x => by
    simp only [List.cons_append, replayEvents]
    exact replayEvents_append h t l₂ (h.onErr e x)

/-- The layer state of a session equals the replay of its traces. -/
def ExtReplay {σ : Type} (h : Handlers σ) (x₀ : σ) (s : EngineState σ) : Prop :=
  s.ext = replayAll h x₀ s.events s.completions

theorem extReplay_step {σ : Type} {fs : Fsys} {root : String} {h : Handlers σ}
    {x₀ : σ} {s s' : EngineState σ} {i : Nat} (inv : EngInv fs root s)
    (hx : ExtReplay h x₀ s) (hs : stepAt fs h s i = some s') :
    ExtReplay h x₀ s' := by
  obtain ⟨pend, cnt, cf, cst, ev, comp, x⟩ := s
  rw [stepAt, Option.map_eq_some'] at hs
  obtain ⟨op, hop, hs⟩ := hs
  subst hs
  simp only at hop
  have hpend_ne : pend ≠ [] := List.ne_nil_of_mem (getIdx?_mem hop)
  have hcomp0 : comp = [] := by
    rcases inv.comp_char with h0 | ⟨_, h0⟩
    · exact h0
    · exact absurd h0 hpend_ne
  subst hcomp0
  unfold ExtReplay at hx ⊢
  simp only at hx
  simp only [replayAll, List.foldl_nil] at hx
  cases op with
  | statOp p =>
    cases hl : lookupFs fs p with
    | none =>
      simp only [stepOp, statCallback, hl, replayAll, List.foldl_nil,
        replayEvents_append, replayEvents, hx]
    | some nd =>
      cases nd with
      | file c =>
        by_cases hz : cnt - 1 = 0 <;>
          simp only [stepOp, statCallback, hl, statOf, Stat.isDirectory,
            Bool.false_eq_true, if_false, checkComplete, hz, if_true,
            if_pos, ite_true, ite_false, replayAll, List.foldl_nil,
            List.foldl_cons, List.nil_append, replayEvents_append,
            replayEvents, hx]
      | dir cs =>
        simp only [stepOp, statCallback, hl, statOf, Stat.isDirectory, if_pos,
          replayAll, List.foldl_nil, replayEvents_append, replayEvents, hx]
  | readdirOp p =>
    cases hl : lookupFs fs p with
    | none =>
      simp only [stepOp, readdirCallback, hl, replayAll, List.foldl_nil,
        replayEvents_append, replayEvents, hx]
    | some nd =>
      cases nd with
      | file c =>
        simp only [stepOp, readdirCallback, hl, replayAll, List.foldl_nil,
          replayEvents_append, replayEvents, hx]
      | dir cs =>
        by_cases hz : cnt - 1 + cs.length = 0 <;>
          simp only [stepOp, readdirCallback, hl,
            foldl_issueStat (fullFilePath p) cs, checkComplete, hz,
            replayAll, List.foldl_nil, List.foldl_cons, ite_true, ite_false,
            replayEvents_append, replayEvents, hx]
        simp [hz, hx]

/-- Along any schedule, the layer state is the replay of the traces. -/
theorem runEngine_replay {σ : Type} {fs : Fsys} {h : Handlers σ} {x₀ : σ}
    {root : String} {sch : List Nat} {s : EngineState σ}
    (hr : runEngine fs h x₀ root sch = some s) : ExtReplay h x₀ s := by
  have : EngInv fs root s ∧ ExtReplay h x₀ s := by
    refine runSched_inv (P := fun t => EngInv fs root t ∧ ExtReplay h x₀ t)
      ?_ ⟨engInv_init fs root x₀, ?_⟩ hr
    · rintro t i t' ⟨inv, hx⟩ hstep
      exact ⟨stepAt_preserves inv hstep, extReplay_step inv hx hstep⟩
    · rfl
  exact this.2

/-! ## Handler-independence of the engine core

The engine mutates its own state identically whatever the caller's
handlers do to theirs: two sessions over the same filesystem and root,
driven by the same schedule, have identical core states.  This is the
coupling that lets the filter layers be compared against the raw
traversal. -/

/-- Forget the layer state of a session. -/
def coreOf {σ : Type} (s : EngineState σ) : EngineState Unit :=
  ⟨s.pending, s.filesToCheck, s.checkedFiles, s.checkedStats, s.events,
   s.completions, ()⟩

theorem stepOp_core {σ₁ σ₂ : Type} (fs : Fsys) (h₁ : Handlers σ₁)
    (h₂ : Handlers σ₂) (op : Op) (pend : List Op) (cnt : Nat)
    (cf : List String) (cst : List Stat) (ev : List Event)
    (comp : List (List String × List Stat)) (x1 : σ₁) (x2 : σ₂) :
    coreOf (stepOp fs h₁ op ⟨pend, cnt, cf, cst, ev, comp, x1⟩) =
      coreOf (stepOp fs h₂ op ⟨pend, cnt, cf, cst, ev, comp, x2⟩) := by
  cases op with
  | statOp p =>
    cases hl : lookupFs fs p with
    | none => simp [stepOp, statCallback, hl, coreOf]
    | some nd =>
      cases nd with
      | file c =>
        by_cases hz : cnt - 1 = 0 <;>
          simp [stepOp, statCallback, hl, statOf, checkComplete, hz, coreOf]
      | dir cs => simp [stepOp, statCallback, hl, statOf, coreOf]
  | readdirOp p =>
    cases hl : lookupFs fs p with
    | none => simp [stepOp, readdirCallback, hl, coreOf]
    | some nd =>
      cases nd with
      | file c => simp [stepOp, readdirCallback, hl, coreOf]
      | dir cs =>
        by_cases hz : cnt - 1 + cs.length = 0 <;>
          simp [stepOp, readdirCallback, hl,
            foldl_issueStat (fullFilePath p) cs, checkComplete, hz, coreOf]

theorem stepAt_core {σ₁ σ₂ : Type} (fs : Fsys) (h₁ : Handlers σ₁)
    (h₂ : Handlers σ₂) {s₁ : EngineState σ₁} {s₂ : EngineState σ₂} (i : Nat)
    (hc : coreOf s₁ = coreOf s₂) :
    Option.map coreOf (stepAt fs h₁ s₁ i) =
      Option.map coreOf (stepAt fs h₂ s₂ i) := by
  obtain ⟨p1, c1, f1, t1, e1, m1, x1⟩ := s₁
  obtain ⟨p2, c2, f2, t2, e2, m2, x2⟩ := s₂
  simp only [coreOf, EngineState.mk.injEq, and_true] at hc
  obtain ⟨hp, hcnt, hf, ht, he, hm⟩ := hc
  subst hp hcnt hf ht he hm
  rw [stepAt, stepAt]
  simp only
  cases hop : getIdx? p1 i with
  | none => rfl
  | some op =>
    simp only [Option.map_some']
    exact congrArg some (stepOp_core fs h₁ h₂ op _ _ _ _ _ _ x1 x2)

theorem runSched_core {σ₁ σ₂ : Type} (fs : Fsys) (h₁ : Handlers σ₁)
    (h₂ : Handlers σ₂) :
    ∀ (sch : List Nat) {s₁ : EngineState σ₁} {s₂ : EngineState σ₂},
      coreOf s₁ = coreOf s₂ →
      Option.map coreOf (runSched (stepAt fs h₁) s₁ sch) =
        Option.map coreOf (runSched (stepAt fs h₂) s₂ sch)
  | [], s₁, s₂, hc => by simp [runSched, hc]
  | i :: t, s₁, s₂, hc => by
    have hstep := stepAt_core fs h₁ h₂ i hc
    rw [runSched, runSched]
    cases h1 : stepAt fs h₁ s₁ i with
    | none =>
      cases h2 : stepAt fs h₂ s₂ i with
      | none => rfl
      | some u => rw [h1, h2] at hstep; simp at hstep
    | some u₁ =>
      cases h2 : stepAt fs h₂ s₂ i with
      | none => rw [h1, h2] at hstep; simp at hstep
      | some u₂ =>
        rw [h1, h2] at hstep
        simp only [Option.map_some'] at hstep
        injection hstep with hstep
        exact runSched_core fs h₁ h₂ t hstep

/-! ## Characterizing the filter layers' accumulation -/

/-- The common shape of both filter layers' per-entry wrappers: keep the
entries selected by `keep`, forward errors unchanged. -/
def filterHandlers (keep : String → Stat → Bool) : Handlers FilterExt where
  onErr e x := { x with events := x.events ++ [Event.err e] }
  onOk f st x :=
    if keep f st then
      { x with files := x.files ++ [f], stats := x.stats ++ [st],
               events := x.events ++ [Event.ok f st] }
    else x
  onComplete _ _ x := { x with completions := x.completions ++ [(x.files, x.stats)] }

theorem eachFileHandlers_eq :
    eachFileHandlers = filterHandlers fun _ st => !st.isDirectory := by
  unfold eachFileHandlers filterHandlers
  congr 1
  funext f st x
  by_cases hd : st.isDirectory <;> simp [hd]

theorem eachFileMatchingHandlers_eq (pat : String → Bool) :
    eachFileMatchingHandlers pat =
      filterHandlers fun f st => !st.isDirectory && pat f := by
  unfold eachFileMatchingHandlers filterHandlers
  congr 1
  funext f st x
  by_cases hd : st.isDirectory <;> by_cases hp : pat f <;> simp [hd, hp]

/-- Which per-entry invocations a filter layer forwards to its caller. -/
def keepEntry (keep : String → Stat → Bool) (e : Event) : Bool :=
  match e with
  | Event.ok p st => keep p st
  | Event.err _ => true

theorem replay_filterHandlers (keep : String → Stat → Bool) :
    ∀ (ev : List Event) (x : FilterExt),
      replayEvents (filterHandlers keep) x ev =
        { files := x.files ++
            (((okPairs ev).filter fun pr => keep pr.1 pr.2).map Prod.fst),
          stats := x.stats ++
            (((okPairs ev).filter fun pr => keep pr.1 pr.2).map Prod.snd),
          events := x.events ++ ev.filter (keepEntry keep),
          completions := x.completions }
  | [], x => by simp [replayEvents, okPairs]
  | Event.ok p st :: t, x => by
    rw [replayEvents, replay_filterHandlers keep t]
    by_cases hk : keep p st <;>
      simp [filterHandlers, hk, okPairs, keepEntry, FilterExt.mk.injEq]
  | Event.err e :: t, x => by
    rw [replayEvents, replay_filterHandlers keep t]
    simp [filterHandlers, okPairs, keepEntry, FilterExt.mk.injEq]

/-- Turn the engine's accumulated pairs into a filter over the accumulated
paths: the stat paired with each path is `statAt` of it. -/
theorem zip_map_filter (g : String → Stat → Bool) (f : String → Stat) :
    ∀ l : List String,
      ((l.zip (l.map f)).filter fun pr => g pr.1 pr.2) =
        (l.filter fun p => g p (f p)).map fun p => (p, f p)
  | [] => rfl
  | a :: t => by
    by_cases hg : g a (f a) <;>
      simp [zip_map_filter g f t, hg]

theorem okPaths_cons_ok (p : String) (st : Stat) (t : List Event) :
    okPaths (Event.ok p st :: t) = p :: okPaths t := rfl

theorem okPaths_cons_err (e : IOErr) (t : List Event) :
    okPaths (Event.err e :: t) = okPaths t := rfl

theorem okPairs_cons_ok (p : String) (st : Stat) (t : List Event) :
    okPairs (Event.ok p st :: t) = (p, st) :: okPairs t := rfl

theorem okPairs_cons_err (e : IOErr) (t : List Event) :
    okPairs (Event.err e :: t) = okPairs t := rfl

theorem okPaths_filter_keepEntry (g : String → Stat → Bool) :
    ∀ ev : List Event,
      okPaths (ev.filter (keepEntry g)) =
        ((okPairs ev).filter fun pr => g pr.1 pr.2).map Prod.fst
  | [] => rfl
  | Event.ok p st :: t => by
    have ih := okPaths_filter_keepEntry g t
    by_cases hg : g p st <;>
      simp [List.filter_cons, keepEntry, hg, okPaths_cons_ok, okPairs_cons_ok, ih]
  | Event.err e :: t => by
    have ih := okPaths_filter_keepEntry g t
    simp [List.filter_cons, keepEntry, okPaths_cons_err, okPairs_cons_err, ih]

theorem map_comp_pair_fst (f : String → Stat) :
    ∀ l : List String, l.map (Prod.fst ∘ fun p => (p, f p)) = l
  | [] => rfl
  | a :: t => by simp [map_comp_pair_fst f t]

theorem map_comp_pair_snd (f : String → Stat) :
    ∀ l : List String, l.map (Prod.snd ∘ fun p => (p, f p)) = l.map f
  | [] => rfl
  | a :: t => by simp [map_comp_pair_snd f t]

/-- The final layer state of an `eachFile` session: the accumulated files
are the non-directory accumulated paths, stats follow pointwise, and the
completion payload (when delivered) is exactly the accumulated arrays. -/
theorem runEachFile_ext {fs : Fsys} {root : String} {sch : List Nat}
    {s : EngineState FilterExt} (hr : runEachFile fs root sch = some s) :
    s.ext.files = s.checkedFiles.filter (fun p => !(statAt fs p).isDirectory) ∧
    s.ext.stats = s.ext.files.map (statAt fs) ∧
    s.ext.events = s.events.filter (keepEntry fun _ st => !st.isDirectory) ∧
    okPaths s.ext.events = s.ext.files ∧
    (s.completions = [] → s.ext.completions = []) ∧
    (s.completions ≠ [] → s.ext.completions = [(s.ext.files, s.ext.stats)]) := by
  have inv : EngInv fs root s := runEngine_inv hr
  have hx : ExtReplay eachFileHandlers ⟨[], [], [], []⟩ s := runEngine_replay hr
  unfold ExtReplay replayAll at hx
  rw [eachFileHandlers_eq] at hx
  rw [replay_filterHandlers] at hx
  simp only [List.nil_append] at hx
  have hpairs :
      ((okPairs s.events).filter fun pr => !pr.2.isDirectory) =
        (s.checkedFiles.filter fun p => !(statAt fs p).isDirectory).map
          fun p => (p, statAt fs p) := by
    rw [inv.ok_pairs, inv.stats_eq]
    exact zip_map_filter (fun _ st => !st.isDirectory) (statAt fs) _
  rcases inv.comp_char with hc | ⟨hc, _⟩
  · rw [hc] at hx
    simp only [List.foldl_nil] at hx
    rw [hx]
    refine ⟨?_, ?_, rfl, ?_, fun _ => rfl, fun hne => absurd hc hne⟩
    · simp [hpairs, List.map_map, map_comp_pair_fst]
    · simp [hpairs, List.map_map, map_comp_pair_fst, map_comp_pair_snd]
    · exact okPaths_filter_keepEntry _ _
  · rw [hc] at hx
    simp only [List.foldl_cons, List.foldl_nil, filterHandlers] at hx
    rw [hx]
    refine ⟨?_, ?_, rfl, ?_, ?_, fun _ => by simp⟩
    · simp [hpairs, List.map_map, map_comp_pair_fst]
    · simp [hpairs, List.map_map, map_comp_pair_fst, map_comp_pair_snd]
    · exact okPaths_filter_keepEntry _ _
    · intro h0
      rw [hc] at h0
      cases h0

/-- The final layer state of an `eachFileMatching` session. -/
theorem runEachFileMatching_ext {fs : Fsys} {pat : String → Bool}
    {root : String} {sch : List Nat} {s : EngineState FilterExt}
    (hr : runEachFileMatching fs pat root sch = some s) :
    s.ext.files = s.checkedFiles.filter
      (fun p => !(statAt fs p).isDirectory && pat p) ∧
    s.ext.stats = s.ext.files.map (statAt fs) ∧
    s.ext.events = s.events.filter
      (keepEntry fun f st => !st.isDirectory && pat f) ∧
    okPaths s.ext.events = s.ext.files ∧
    (s.completions = [] → s.ext.completions = []) ∧
    (s.completions ≠ [] → s.ext.completions = [(s.ext.files, s.ext.stats)]) := by
  have inv : EngInv fs root s := runEngine_inv hr
  have hx : ExtReplay (eachFileMatchingHandlers pat) ⟨[], [], [], []⟩ s :=
    runEngine_replay hr
  unfold ExtReplay replayAll at hx
  rw [eachFileMatchingHandlers_eq] at hx
  rw [replay_filterHandlers] at hx
  simp only [List.nil_append] at hx
  have hpairs :
      ((okPairs s.events).filter fun pr => !pr.2.isDirectory && pat pr.1) =
        (s.checkedFiles.filter fun p => !(statAt fs p).isDirectory && pat p).map
          fun p => (p, statAt fs p) := by
    rw [inv.ok_pairs, inv.stats_eq]
    exact zip_map_filter (fun f st => !st.isDirectory && pat f) (statAt fs) _
  rcases inv.comp_char with hc | ⟨hc, _⟩
  · rw [hc] at hx
    simp only [List.foldl_nil] at hx
    rw [hx]
    refine ⟨?_, ?_, rfl, ?_, fun _ => rfl, fun hne => absurd hc hne⟩
    · simp [hpairs, List.map_map, map_comp_pair_fst]
    · simp [hpairs, List.map_map, map_comp_pair_fst, map_comp_pair_snd]
    · exact okPaths_filter_keepEntry _ _
  · rw [hc] at hx
    simp only [List.foldl_cons, List.foldl_nil, filterHandlers] at hx
    rw [hx]
    refine ⟨?_, ?_, rfl, ?_, ?_, fun _ => by simp⟩
    · simp [hpairs, List.map_map, map_comp_pair_fst]
    · simp [hpairs, List.map_map, map_comp_pair_fst, map_comp_pair_snd]
    · exact okPaths_filter_keepEntry _ _
    · intro h0
      rw [hc] at h0
      cases h0

/-! ## The reader layer's accumulation invariant -/

/-- What a step can do to the layer state: invoke the error handler, the
entry handler on a successfully statted node (possibly followed by the
completion handler), nothing, or the completion handler alone. -/
theorem stepAt_ext_cases {σ : Type} {fs : Fsys} {h : Handlers σ}
    {s s' : EngineState σ} {i : Nat} (hs : stepAt fs h s i = some s') :
    (∃ e, s'.ext = h.onErr e s.ext) ∨
    (∃ p nd, lookupFs fs p = some nd ∧
      (s'.ext = h.onOk p (statOf nd) s.ext ∨
       ∃ cf cst, s'.ext = h.onComplete cf cst (h.onOk p (statOf nd) s.ext))) ∨
    s'.ext = s.ext ∨ (∃ cf cst, s'.ext = h.onComplete cf cst s.ext) := by
  obtain ⟨pend, cnt, cf, cst, ev, comp, x⟩ := s
  rw [stepAt, Option.map_eq_some'] at hs
  obtain ⟨op, hop, hs⟩ := hs
  subst hs
  cases op with
  | statOp p =>
    cases hl : lookupFs fs p with
    | none =>
      exact Or.inl ⟨IOErr.enoent p, by simp [stepOp, statCallback, hl]⟩
    | some nd =>
      cases nd with
      | file c =>
        refine Or.inr (Or.inl ⟨p, FSNode.file c, hl, ?_⟩)
        by_cases hz : cnt - 1 = 0
        · exact Or.inr ⟨cf ++ [p], cst ++ [statOf (FSNode.file c)], by
            simp [stepOp, statCallback, hl, statOf, checkComplete, hz]⟩
        · exact Or.inl (by
            simp [stepOp, statCallback, hl, statOf, checkComplete, hz])
      | dir cs =>
        exact Or.inr (Or.inl ⟨p, FSNode.dir cs, hl,
          Or.inl (by simp [stepOp, statCallback, hl, statOf])⟩)
  | readdirOp p =>
    cases hl : lookupFs fs p with
    | none =>
      exact Or.inl ⟨IOErr.enoent p, by simp [stepOp, readdirCallback, hl]⟩
    | some nd =>
      cases nd with
      | file c =>
        exact Or.inl ⟨IOErr.enotdir p, by simp [stepOp, readdirCallback, hl]⟩
      | dir cs =>
        by_cases hz : cnt - 1 + cs.length = 0
        · refine Or.inr (Or.inr (Or.inr ⟨cf, cst, ?_⟩))
          simp [stepOp, readdirCallback, hl,
            foldl_issueStat (fullFilePath p) cs, checkComplete, hz]
        · refine Or.inr (Or.inr (Or.inl ?_))
          simp [stepOp, readdirCallback, hl,
            foldl_issueStat (fullFilePath p) cs, checkComplete, hz]

/-- The accumulation invariant of a `readEachFileMatching` session's layer
state: stats and contents line up pointwise with the accumulated files,
every in-flight read targets a statted regular file, and every delivered
completion payload lines up pointwise as well. -/
structure RdExtInv (fs : Fsys) (x : ReaderExt) : Prop where
  stats_eq : x.stats = x.files.map (statAt fs)
  contents_eq : x.contents = x.files.map (contentAt fs)
  pending_ok : ∀ e ∈ x.pendingReads, ∀ f st, e = some (f, st) →
    st = statAt fs f ∧ ∃ c, lookupFs fs f = some (FSNode.file c)
  comps_ok : ∀ t ∈ x.completions,
    t.2.1 = t.1.map (statAt fs) ∧ t.2.2 = t.1.map (contentAt fs)

theorem rdExtInv_onErr {fs : Fsys} {pat : String → Bool} {x : ReaderExt}
    (hx : RdExtInv fs x) (e : IOErr) :
    RdExtInv fs ((readerHandlers pat).onErr e x) := by
  refine { stats_eq := hx.stats_eq, contents_eq := hx.contents_eq,
           pending_ok := ?_, comps_ok := hx.comps_ok }
  intro en hen f st hfe
  simp only [readerHandlers] at hen
  rcases List.mem_append.mp hen with h1 | h1
  · exact hx.pending_ok en h1 f st hfe
  · rw [List.mem_singleton.mp h1] at hfe
    cases hfe

theorem rdExtInv_onOk {fs : Fsys} {pat : String → Bool} {x : ReaderExt}
    (hx : RdExtInv fs x) (p : String) (nd : FSNode)
    (hl : lookupFs fs p = some nd) :
    RdExtInv fs ((readerHandlers pat).onOk p (statOf nd) x) := by
  cases nd with
  | dir cs =>
    exact { stats_eq := hx.stats_eq, contents_eq := hx.contents_eq,
            pending_ok := hx.pending_ok, comps_ok := hx.comps_ok }
  | file c =>
    by_cases hp : pat p
    · refine { stats_eq := ?_, contents_eq := ?_, pending_ok := ?_,
               comps_ok := ?_ }
      · simpa [readerHandlers, statOf, hp] using hx.stats_eq
      · simpa [readerHandlers, statOf, hp] using hx.contents_eq
      · intro en hen f st hfe
        have hen' : en ∈ x.pendingReads ∨ en = some (p, statOf (FSNode.file c)) := by
          simpa [readerHandlers, statOf, hp] using hen
        rcases hen' with h1 | h1
        · exact hx.pending_ok en h1 f st hfe
        · rw [h1] at hfe
          injection hfe with hfe
          have hf : p = f := congrArg Prod.fst hfe
          have hst : statOf (FSNode.file c) = st := congrArg Prod.snd hfe
          subst hf
          subst hst
          exact ⟨by simp [statAt, hl], c, hl⟩
      · simpa [readerHandlers, statOf, hp] using hx.comps_ok
    · refine { stats_eq := ?_, contents_eq := ?_, pending_ok := ?_,
               comps_ok := ?_ }
      · simpa [readerHandlers, statOf, hp] using hx.stats_eq
      · simpa [readerHandlers, statOf, hp] using hx.contents_eq
      · intro en hen f st hfe
        refine hx.pending_ok en ?_ f st hfe
        simpa [readerHandlers, statOf, hp] using hen
      · simpa [readerHandlers, statOf, hp] using hx.comps_ok

theorem rdExtInv_onComplete {fs : Fsys} {pat : String → Bool} {x : ReaderExt}
    (hx : RdExtInv fs x) (cf : List String) (cst : List Stat) :
    RdExtInv fs ((readerHandlers pat).onComplete cf cst x) := by
  refine { stats_eq := hx.stats_eq, contents_eq := hx.contents_eq,
           pending_ok := hx.pending_ok, comps_ok := ?_ }
  intro t ht
  simp only [readerHandlers] at ht
  rcases List.mem_append.mp ht with h1 | h1
  · exact hx.comps_ok t h1
  · rw [List.mem_singleton.mp h1]
    exact ⟨hx.stats_eq, hx.contents_eq⟩

theorem rdExtInv_readCallback {fs : Fsys} {x : ReaderExt}
    (hx : RdExtInv fs x) (en : Option (String × Stat))
    (hen : ∀ f st, en = some (f, st) →
      st = statAt fs f ∧ ∃ c, lookupFs fs f = some (FSNode.file c)) :
    RdExtInv fs (readCallback fs en x) := by
  cases en with
  | none =>
    exact { stats_eq := hx.stats_eq, contents_eq := hx.contents_eq,
            pending_ok := hx.pending_ok, comps_ok := hx.comps_ok }
  | some pr =>
    obtain ⟨f, st⟩ := pr
    obtain ⟨hst, c, hl⟩ := hen f st rfl
    refine { stats_eq := ?_, contents_eq := ?_, pending_ok := ?_,
             comps_ok := ?_ }
    · simp [readCallback, readFileRes, hl, hx.stats_eq, hst]
    · simp [readCallback, readFileRes, hl, hx.contents_eq, contentAt]
    · simpa [readCallback, readFileRes, hl] using hx.pending_ok
    · simpa [readCallback, readFileRes, hl] using hx.comps_ok

/-- The reader invariant holds along every schedule of a
`readEachFileMatching` session. -/
theorem runReader_inv {fs : Fsys} {pat : String → Bool} {root : String}
    {sch : List (Nat ⊕ Nat)} {s : EngineState ReaderExt}
    (hr : runReader fs pat root sch = some s) : RdExtInv fs s.ext := by
  refine runSched_inv (P := fun t => RdExtInv fs t.ext) ?_ ?_ hr
  · rintro t (i | j) t' hinv hstep
    · rcases stepAt_ext_cases hstep with ⟨e, he⟩ | ⟨p, nd, hl, hcase⟩ | he | ⟨cf, cst, he⟩
      · rw [he]; exact rdExtInv_onErr hinv e
      · rcases hcase with he | ⟨cf, cst, he⟩
        · rw [he]; exact rdExtInv_onOk hinv p nd hl
        · rw [he]
          exact rdExtInv_onComplete (rdExtInv_onOk hinv p nd hl) cf cst
      · rw [he]; exact hinv
      · rw [he]; exact rdExtInv_onComplete hinv cf cst
    · simp only [readerStep, readStepAt] at hstep
      rw [Option.map_eq_some'] at hstep
      obtain ⟨en, hen, hstep⟩ := hstep
      subst hstep
      simp only
      refine rdExtInv_readCallback ?_ en ?_
      · refine { stats_eq := hinv.stats_eq, contents_eq := hinv.contents_eq,
                 pending_ok := ?_, comps_ok := hinv.comps_ok }
        intro e he f st hfe
        exact hinv.pending_ok e (mem_of_mem_removeIdx he) f st hfe
      · intro f st hfe
        exact hinv.pending_ok en (getIdx?_mem hen) f st hfe
  · refine { stats_eq := rfl, contents_eq := rfl,
             pending_ok := ?_, comps_ok := ?_ }
    · intro e he _ _ _
      cases he
    · intro t ht
      cases ht

/-- The visited set of a successful error-free sequential traversal is
exactly the reachable set. -/
theorem syncVisit_files_iff {fs : Fsys} {rt : String} {n : Nat} {r : SyncResult}
    (h : syncVisit fs n rt = some r) (hne : r.error = none) :
    ∀ q, q ∈ r.files ↔ ReachPath fs rt q := by
  intro q
  constructor
  · exact fun hq => (syncVisit_sound fs rt n).1 rt r h ReachPath.root q hq
  · intro hq
    induction hq with
    | root => exact syncVisit_mem h hne
    | child hp hl hc ih => exact (syncVisit_closed fs n).1 rt r h hne _ _ ih hl _ hc

/-- A thrown exception while visiting child `c` propagates: the listing's
later siblings `cs₂` are never examined, and the result carries exactly
the entries visited before the exception. -/
theorem syncChildrenOf_abort (v : String → Option SyncResult) (p : String) :
    ∀ (cs₁ : List String) {c : String} (cs₂ : List String) {r₁ rc : SyncResult}
      {e : IOErr},
      syncChildrenOf v p cs₁ = some r₁ → r₁.error = none →
      v (fullFilePath p c) = some rc → rc.error = some e →
      syncChildrenOf v p (cs₁ ++ c :: cs₂) =
        some ⟨r₁.files ++ rc.files, r₁.stats ++ rc.stats, some e⟩
  | [], c, cs₂, r₁, rc, e, h1, hne, hc, he => by
    rw [syncChildrenOf] at h1
    injection h1 with h1
    rw [← h1]
    simp only [List.nil_append]
    rw [syncChildrenOf, hc]
    simp only [he]
  | c₁ :: t, c, cs₂, r₁, rc, e, h1, hne, hc, he => by
    rw [syncChildrenOf] at h1
    cases hc₁ : v (fullFilePath p c₁) with
    | none => rw [hc₁] at h1; simp at h1
    | some r₀ =>
      rw [hc₁] at h1
      simp only at h1
      cases he₀ : r₀.error with
      | some e₀ =>
        rw [he₀] at h1
        simp only at h1
        injection h1 with h1
        rw [← h1] at hne
        simp at hne
      | none =>
        rw [he₀] at h1
        simp only at h1
        cases ht : syncChildrenOf v p t with
        | none => rw [ht] at h1; simp at h1
        | some rt' =>
          rw [ht] at h1
          simp only at h1
          injection h1 with h1
          have hrt : rt'.error = none := by
            rw [← h1] at hne
            simpa using hne
          have hIH := syncChildrenOf_abort v p t cs₂ ht hrt hc he
          simp only [List.cons_append]
          rw [syncChildrenOf, hc₁]
          simp only [he₀]
          rw [hIH]
          rw [← h1]
          simp [List.append_assoc]

theorem filter_filter_and {α : Type} (p q : α → Bool) :
    ∀ l : List α, (l.filter q).filter p = l.filter fun a => q a && p a
  | [] => rfl
  | a :: t => by
    by_cases hq : q a <;> by_cases hp : p a <;>
      simp [hq, hp, filter_filter_and p q t]

/-! ## The path join -/

theorem stripTrailingSlash_append_slash (d : String) :
    stripTrailingSlash (d ++ "/") = d := by
  obtain ⟨l⟩ := d
  show stripTrailingSlash (String.mk (l ++ ['/'])) = String.mk l
  unfold stripTrailingSlash
  simp only [List.getLast?_concat, if_pos, List.dropLast_concat, ite_true]

theorem stripTrailingSlash_of_no_slash (d : String)
    (h : d.data.getLast? ≠ some '/') : stripTrailingSlash d = d := by
  unfold stripTrailingSlash
  rw [if_neg h]

/-! ## The sequential layers

`eachFileSync`, `eachFileMatchingSync` and `readEachFileMatchingSync` wrap
the sequential engine's per-entry handler exactly like their concurrent
counterparts wrap the concurrent engine's: each keeps a subset of the
delivered entries, pushing path and stat (and content) in lockstep.  A
sequential session's observable outcome is its callback-invocation trace
plus the exception that aborted it; the wrappers keep the selected subset
of the engine's trace, in order, and any exception propagates through them
unchanged (nothing catches it). -/

/-- `eachFileSync`: keep only the non-directory entries of the traversal,
pushing `files` and `stats` in lockstep; an engine exception propagates. -/
def eachFileSyncRun (fs : Fsys) (n : Nat) (p : String) : Option SyncResult :=
  (syncVisit fs n p).map fun r =>
    ⟨((r.files.zip r.stats).filter fun pr => !pr.2.isDirectory).map Prod.fst,
     ((r.files.zip r.stats).filter fun pr => !pr.2.isDirectory).map Prod.snd,
     r.error⟩

/-- `eachFileMatchingSync`: additionally keep only the entries whose full
joined path satisfies `expression.test(file)`. -/
def eachFileMatchingSyncRun (fs : Fsys) (pat : String → Bool) (n : Nat)
    (p : String) : Option SyncResult :=
  (eachFileSyncRun fs n p).map fun r =>
    ⟨((r.files.zip r.stats).filter fun pr => pat pr.1).map Prod.fst,
     ((r.files.zip r.stats).filter fun pr => pat pr.1).map Prod.snd,
     r.error⟩

/-- The observable outcome of a `readEachFileMatchingSync` session. -/
structure ReadSyncResult where
  files : List String
  stats : List Stat
  contents : List String
  error : Option IOErr
deriving DecidableEq

/-- `readEachFileMatchingSync`'s per-entry wrapper, folded over the
matched deliveries in order: `fs.readFileSync` the target, then push path,
content and the captured stat; a thrown read error propagates immediately,
aborting the remaining entries. -/
def readMatchedSync (fs : Fsys) : List (String × Stat) → ReadSyncResult
  | [] => ⟨[], [], [], none⟩
  | (f, st) :: rest =>
    match readFileRes fs (some f) with
    | Except.error e => ⟨[], [], [], some e⟩
    | Except.ok c =>
      let r := readMatchedSync fs rest
      ⟨f :: r.files, st :: r.stats, c :: r.contents, r.error⟩

/-- A whole `readEachFileMatchingSync` session: read every matched entry
during the traversal; a read exception (were one possible) takes
precedence, otherwise the traversal's own exception propagates. -/
def readEachFileMatchingSyncRun (fs : Fsys) (pat : String → Bool) (n : Nat)
    (p : String) : Option ReadSyncResult :=
  (eachFileMatchingSyncRun fs pat n p).map fun r =>
    ⟨(readMatchedSync fs (r.files.zip r.stats)).files,
     (readMatchedSync fs (r.files.zip r.stats)).stats,
     (readMatchedSync fs (r.files.zip r.stats)).contents,
     match (readMatchedSync fs (r.files.zip r.stats)).error with
     | some e => some e
     | none => r.error⟩

/-- Filtering a lockstep pair of lists keeps it in lockstep. -/
theorem zip_filter_lockstep (f : String → Stat) (g : String → Stat → Bool)
    (l : List String) :
    (((l.zip (l.map f)).filter fun pr => g pr.1 pr.2).map Prod.snd) =
      ((((l.zip (l.map f)).filter fun pr => g pr.1 pr.2).map Prod.fst).map f) := by
  induction l with
  | nil => rfl
  | cons a t ih =>
    by_cases hg : g a (f a) <;>
      simp [List.filter_cons, hg, ih]

/-- Reading a lockstep list of matched entries yields files, stats and
contents in lockstep. -/
theorem readMatchedSync_lockstep (fs : Fsys) :
    ∀ l : List String,
      (readMatchedSync fs (l.zip (l.map (statAt fs)))).stats =
        (readMatchedSync fs (l.zip (l.map (statAt fs)))).files.map (statAt fs) ∧
      (readMatchedSync fs (l.zip (l.map (statAt fs)))).contents =
        (readMatchedSync fs (l.zip (l.map (statAt fs)))).files.map (contentAt fs)
  | [] => ⟨rfl, rfl⟩
  | f :: t => by
    cases hrf : readFileRes fs (some f) with
    | error e => simp [readMatchedSync, hrf]
    | ok c =>
      obtain ⟨ih1, ih2⟩ := readMatchedSync_lockstep fs t
      have hc : c = contentAt fs f := by
        unfold readFileRes at hrf
        simp only at hrf
        cases hl : lookupFs fs f with
        | none => rw [hl] at hrf; cases hrf
        | some nd =>
          cases nd with
          | file c' =>
            rw [hl] at hrf
            injection hrf with hrf
            rw [← hrf]
            simp [contentAt, hl]
          | dir cs => rw [hl] at hrf; cases hrf
      simp [readMatchedSync, hrf, hc]
      exact ⟨ih1, ih2⟩

/-! ## Concrete fixtures used by the claims -/

/-- The tree `root/{a.txt, sub/{b.txt, c.log}}`. -/
def claim3fs : Fsys :=
  [("root", FSNode.dir ["a.txt", "sub"]),
   ("root/a.txt", FSNode.file "A"),
   ("root/sub", FSNode.dir ["b.txt", "c.log"]),
   ("root/sub/b.txt", FSNode.file "B"),
   ("root/sub/c.log", FSNode.file "C")]

/-- The paths the sequential traversal visits on `claim3fs`, in order. -/
def claim3syncFiles : List String :=
  ["root", "root/a.txt", "root/sub", "root/sub/b.txt", "root/sub/c.log"]

/-- A tree whose directory listing names a child that does not exist. -/
def claim1fs : Fsys :=
  [("root", FSNode.dir ["a", "gone"]), ("root/a", FSNode.file "x")]

/-! ## The claims -/

/-- C1: the claim says that whenever a stat or readdir fails, the per-entry
handler receives the error AND the eventual completion handler receives
that error instead of the accumulated result, with the partial accumulation
never delivered.  The code violates the completion half: `checkComplete_`
is skipped on every error path and always passes `null` as the error, so
the completion handler never receives an error.  On a missing root the
per-entry handler does get the `ENOENT` and nothing is accumulated, but
the completion handler is never invoked at all (first conjunct: the session
is terminal with zero completion invocations).  And when an error occurs on
a non-final branch, the completion handler later fires successfully with
the partial accumulation (second conjunct: error recorded, yet completion
delivered `(["root", "root/a"], ...)` with a null error). -/
theorem claim1_error_never_reaches_completion :
    (Option.map (fun s => (s.events, s.checkedFiles, s.completions, s.pending))
        (runTraverse [] "missing" [0]) =
      some ([Event.err (IOErr.enoent "missing")], [], [], [])) ∧
    (Option.map (fun s => (s.completions, noErr s.events))
        (runTraverse claim1fs "root" [0, 0, 1, 0]) =
      some ([(["root", "root/a"], [Stat.mk true, Stat.mk false])], false)) :=
  ⟨rfl, rfl⟩

/-- C2 (counterexample): the claim says the completion handler fires
exactly once per session.  A session probing a non-existent root runs to
its terminal state (nothing in flight, no step possible) with zero
completion invocations. -/
theorem claim2_counterexample :
    Option.map (fun s => (s.pending, s.completions.length))
      (runTraverse [] "absent" [0]) = some ([], 0) := by
  decide

/-- C2 (amended): for every `eachFileOrDirectory` session (any handlers,
any schedule): the `filesToCheck` counter always equals the number of
in-flight operations, so it is zero only at the terminal state, which a
maximal session reaches exactly once (every proper prefix of a longer
schedule ends with work in flight); the completion handler fires AT MOST
once per session — exactly once when no stat/readdir error occurred — and
only synchronously when the counter has reached zero, at which point every
reachable directory has been probed and expanded and every child probed
(in the error-free case they are all accumulated); and once completion has
fired no further step, hence no per-entry handler invocation, is
possible. -/
theorem claim2_engine_invariants {σ : Type} (fs : Fsys) (h : Handlers σ)
    (x : σ) (root : String) (sch : List Nat) (s : EngineState σ)
    (hr : runEngine fs h x root sch = some s) :
    s.filesToCheck = s.pending.length ∧
    s.completions.length ≤ 1 ∧
    (s.completions ≠ [] → s.filesToCheck = 0 ∧ s.pending = []) ∧
    (s.completions ≠ [] →
      ∀ sch' s', runSched (stepAt fs h) s sch' = some s' → s' = s) ∧
    (noErr s.events = true → (s.completions.length = 1 ↔ s.pending = [])) ∧
    (s.pending = [] → noErr s.events = true →
      root ∈ s.checkedFiles ∧
      ∀ p cs, p ∈ s.checkedFiles → lookupFs fs p = some (FSNode.dir cs) →
        ∀ c ∈ cs, fullFilePath p c ∈ s.checkedFiles) ∧
    (∀ sch₁ sch₂ s₁, sch = sch₁ ++ sch₂ → sch₂ ≠ [] →
      runEngine fs h x root sch₁ = some s₁ → s₁.pending ≠ []) := by
  have inv := runEngine_inv hr
  refine ⟨inv.counter_eq, ?_, ?_, ?_, ?_, ?_, ?_⟩
  · rcases inv.comp_char with h0 | ⟨h0, _⟩ <;> simp [h0]
  · intro hne0
    rcases inv.comp_char with h0 | ⟨h0, hp⟩
    · exact absurd h0 hne0
    · exact ⟨by rw [inv.counter_eq, hp]; rfl, hp⟩
  · intro hne0 sch' s' hr'
    rcases inv.comp_char with h0 | ⟨h0, hp⟩
    · exact absurd h0 hne0
    · exact runSched_terminal hp hr'
  · intro hnoerr
    constructor
    · intro h1
      by_contra hp
      have h0 : s.completions = [] := (inv.comp_noerr hnoerr).mpr hp
      rw [h0] at h1
      simp at h1
    · intro hp
      have hne2 : s.completions ≠ [] := by
        intro h0
        exact (inv.comp_noerr hnoerr).mp h0 hp
      rcases inv.comp_char with h0 | ⟨h0, _⟩
      · exact absurd h0 hne2
      · rw [h0]; rfl
  · intro hterm hnoerr
    have hiff := terminal_checked_iff_reach inv hterm hnoerr
    exact ⟨(hiff root).mpr ReachPath.root,
      fun p cs hp hl c hc =>
        (hiff _).mpr (ReachPath.child ((hiff p).mp hp) hl hc)⟩
  · intro sch₁ sch₂ s₁ hsplit hne2 hr₁ h0
    rw [hsplit] at hr
    unfold runEngine at hr hr₁
    rw [runSched_append] at hr
    rw [hr₁] at hr
    simp only at hr
    cases sch₂ with
    | nil => exact hne2 rfl
    | cons j t =>
      rw [runSched, stepAt_terminal fs h h0 j] at hr
      exact absurd hr (by simp)

/-- The final state of a bare session on a single-file root. -/
def claim2state : EngineState Unit :=
  (runTraverse [("r", FSNode.file "x")] "r" [0]).getD (initEngine () "r")

theorem claim2_witness :
    claim2state.filesToCheck = claim2state.pending.length ∧
    claim2state.completions.length ≤ 1 := by
  have h := claim2_engine_invariants [("r", FSNode.file "x")] trivialHandlers ()
    "r" [0] claim2state (by decide)
  exact ⟨h.1, h.2.1⟩

/-- C3 (counterexample): the claim says `eachFile` invokes its callback for
exactly the four entries `a.txt`, `sub`, `sub/b.txt`, `sub/c.log`.  A
complete session on that tree delivers exactly three entries — the
directory `sub` is never forwarded, because `eachFile` filters out
directories. -/
theorem claim3_counterexample :
    Option.map (fun s => (s.ext.files, s.pending))
      (runEachFile claim3fs "root" (List.replicate 7 0)) =
    some (["root/a.txt", "root/sub/b.txt", "root/sub/c.log"], []) := by
  decide

/-- C3 (amended): on the tree `root/{a.txt, sub/{b.txt, c.log}}`,
`eachFile` invokes its per-entry callback for exactly the three
non-directory entries `root/a.txt`, `root/sub/b.txt` and `root/sub/c.log`,
in every complete error-free session whatever the completion order of the
asynchronous operations; the directory `sub` is never forwarded. -/
theorem claim3_eachFile_visits_files_only (sch : List Nat)
    (s : EngineState FilterExt)
    (hr : runEachFile claim3fs "root" sch = some s) (hterm : s.pending = [])
    (hne : noErr s.events = true) :
    ∀ p, p ∈ s.ext.files ↔
      p ∈ ["root/a.txt", "root/sub/b.txt", "root/sub/c.log"] := by
  have inv := runEngine_inv hr
  obtain ⟨hfiles, -, -, -, -, -⟩ := runEachFile_ext hr
  have hreach := terminal_checked_iff_reach inv hterm hne
  have hsync : syncVisit claim3fs 9 "root" =
      some ⟨claim3syncFiles, [⟨true⟩, ⟨false⟩, ⟨true⟩, ⟨false⟩, ⟨false⟩],
            none⟩ := by
    decide
  have hiff := syncVisit_files_iff hsync rfl
  intro p
  rw [hfiles, List.mem_filter]
  constructor
  · rintro ⟨hp, hfile⟩
    have h5 : p ∈ claim3syncFiles := (hiff p).mpr ((hreach p).mp hp)
    have h5' : p = "root" ∨ p = "root/a.txt" ∨ p = "root/sub" ∨
        p = "root/sub/b.txt" ∨ p = "root/sub/c.log" := by
      simpa [claim3syncFiles] using h5
    rcases h5' with rfl | rfl | rfl | rfl | rfl
    · exact absurd hfile (by decide)
    · decide
    · exact absurd hfile (by decide)
    · decide
    · decide
  · intro hp3
    have h3 : p = "root/a.txt" ∨ p = "root/sub/b.txt" ∨
        p = "root/sub/c.log" := by
      simpa using hp3
    have hmem : ∀ q, q ∈ claim3syncFiles → q ∈ s.checkedFiles := fun q hq =>
      (hreach q).mpr ((hiff q).mp hq)
    rcases h3 with rfl | rfl | rfl
    · exact ⟨hmem _ (by decide), by decide⟩
    · exact ⟨hmem _ (by decide), by decide⟩
    · exact ⟨hmem _ (by decide), by decide⟩

/-- The final state of the `eachFile` session driven by the left-to-right
schedule on `claim3fs`. -/
def claim3state : EngineState FilterExt :=
  (runEachFile claim3fs "root" (List.replicate 7 0)).getD
    (initEngine ⟨[], [], [], []⟩ "root")

theorem claim3_witness :
    "root/a.txt" ∈ claim3state.ext.files ↔
      "root/a.txt" ∈ ["root/a.txt", "root/sub/b.txt", "root/sub/c.log"] :=
  claim3_eachFile_visits_files_only (List.replicate 7 0) claim3state
    (by decide) (by decide) (by decide) "root/a.txt"

/-- A tree whose single listed child does not exist, driven through the
reader layer. -/
def claim4fs : Fsys := [("root", FSNode.dir ["gone"])]

/-- C4: the claim says the Filter and Reader layers forward every error
unchanged, so a probe/list error surfaced by `eachFileMatching` is
reported as that same error by `readEachFileMatching`.  The code violates
this: the reader's per-entry wrapper ignores its incoming error argument
and immediately calls `fs.readFile(file)` with `file` undefined, so the
caller receives the `readFile` invalid-argument error instead of the
original `ENOENT`.  Concretely: the engine records the `ENOENT` for
`root/gone` (first component), yet the reader's caller sees only
`invalidPath` (second component) — the original error value is dropped. -/
theorem claim4_reader_replaces_probe_error :
    Option.map (fun s => (s.events, s.ext.events, s.ext.pendingReads))
      (runReader claim4fs (fun _ => true) "root"
        [Sum.inl 0, Sum.inl 0, Sum.inl 0, Sum.inr 0]) =
    some ([Event.ok "root" (Stat.mk true),
           Event.err (IOErr.enoent "root/gone")],
          [REvent.err IOErr.invalidPath], []) := rfl

/-- The tree `root/{a.txt}` with readable content, under the reader
layer. -/
def claim5fs : Fsys :=
  [("root", FSNode.dir ["a.txt"]), ("root/a.txt", FSNode.file "hello")]

/-- C5: the claim says `readEachFileMatching`'s error-free completion
delivers the full contents of every matched file, never a partial payload
with reads outstanding.  The code violates this: the completion wrapper
fires when the underlying traversal completes, regardless of in-flight
`fs.readFile` calls.  Under the schedule where the traversal's last stat
resolves before the read, the completion handler delivers empty arrays
while one read is still pending and no error occurred anywhere (first
component); when that read later resolves, its path and contents land in
the arrays but the already-delivered payload was the empty one (second
component). -/
theorem claim5_partial_completion_payload :
    (Option.map
        (fun s => (s.ext.completions, s.ext.pendingReads.length, noErr s.events))
        (runReader claim5fs (fun _ => true) "root"
          [Sum.inl 0, Sum.inl 0, Sum.inl 0]) =
      some ([([], [], [])], 1, true)) ∧
    (Option.map (fun s => (s.ext.completions, s.ext.files, s.ext.contents))
        (runReader claim5fs (fun _ => true) "root"
          [Sum.inl 0, Sum.inl 0, Sum.inl 0, Sum.inr 0]) =
      some ([([], [], [])], ["root/a.txt"], ["hello"])) :=
  ⟨rfl, rfl⟩

/-- C6: for every tree on which no stat/readdir operation fails, the set
of paths visited by the concurrent traversal (any complete error-free
schedule of `eachFileOrDirectory`) equals the set visited by the
sequential traversal (`eachFileOrDirectorySync`), ignoring order. -/
theorem claim6_concurrent_equals_sequential (fs : Fsys) (root : String)
    (sch : List Nat) (s : EngineState Unit) (n : Nat) (r : SyncResult)
    (hr : runTraverse fs root sch = some s) (hterm : s.pending = [])
    (hne : noErr s.events = true)
    (hs : syncVisit fs n root = some r) (hre : r.error = none) :
    ∀ p, p ∈ s.checkedFiles ↔ p ∈ r.files := by
  intro p
  rw [terminal_checked_iff_reach (runEngine_inv hr) hterm hne p]
  exact (syncVisit_files_iff hs hre p).symm

/-- The final state of the bare concurrent session on `claim3fs`. -/
def claim6state : EngineState Unit :=
  (runTraverse claim3fs "root" (List.replicate 7 0)).getD (initEngine () "root")

/-- The sequential traversal's result on `claim3fs`. -/
def claim6sync : SyncResult :=
  (syncVisit claim3fs 9 "root").getD ⟨[], [], none⟩

theorem claim6_witness :
    "root/sub" ∈ claim6state.checkedFiles ↔ "root/sub" ∈ claim6sync.files :=
  claim6_concurrent_equals_sequential claim3fs "root" (List.replicate 7 0)
    claim6state 9 claim6sync rfl rfl rfl rfl rfl "root/sub"

/-- C7: for every tree, pattern and schedule, an `eachFileMatching`
session delivers (per entry, in its arrays, and in its completion payload)
exactly the entries the `eachFile` session driven by the same schedule
delivers, filtered externally by whether the pattern matches the full
joined path; stats follow the files pointwise, and the two sessions
complete together. -/
theorem claim7_matching_is_external_filter (fs : Fsys) (pat : String → Bool)
    (root : String) (sch : List Nat) (s₂ : EngineState FilterExt)
    (hr₂ : runEachFileMatching fs pat root sch = some s₂) :
    ∃ s₁, runEachFile fs root sch = some s₁ ∧
      s₂.ext.files = s₁.ext.files.filter pat ∧
      s₂.ext.stats = s₂.ext.files.map (statAt fs) ∧
      okPaths s₂.ext.events = s₂.ext.files ∧
      okPaths s₁.ext.events = s₁.ext.files ∧
      (∀ pl ∈ s₂.ext.completions, pl = (s₂.ext.files, s₂.ext.stats)) ∧
      (∀ pl ∈ s₁.ext.completions, pl = (s₁.ext.files, s₁.ext.stats)) ∧
      (s₂.ext.completions = [] ↔ s₁.ext.completions = []) := by
  have hcore := runSched_core fs (eachFileMatchingHandlers pat)
    eachFileHandlers sch
    (rfl :
      coreOf (initEngine (⟨[], [], [], []⟩ : FilterExt) root) =
        coreOf (initEngine (⟨[], [], [], []⟩ : FilterExt) root))
  unfold runEachFileMatching runEngine at hr₂
  rw [hr₂] at hcore
  cases hr₁ : runSched (stepAt fs eachFileHandlers)
      (initEngine ⟨[], [], [], []⟩ root) sch with
  | none =>
    rw [hr₁] at hcore
    simp at hcore
  | some s₁ =>
    rw [hr₁] at hcore
    simp only [Option.map_some'] at hcore
    injection hcore with hcore
    obtain ⟨e2f, e2s, e2e, e2p, e2c1, e2c2⟩ := runEachFileMatching_ext hr₂
    obtain ⟨e1f, e1s, e1e, e1p, e1c1, e1c2⟩ := runEachFile_ext hr₁
    have hcf : s₂.checkedFiles = s₁.checkedFiles := by
      have := congrArg EngineState.checkedFiles hcore
      simpa [coreOf] using this
    have hcm : s₂.completions = s₁.completions := by
      have := congrArg EngineState.completions hcore
      simpa [coreOf] using this
    refine ⟨s₁, hr₁, ?_, e2s, e2p, e1p, ?_, ?_, ?_⟩
    · rw [e2f, e1f, hcf, filter_filter_and]
    · intro pl hpl
      by_cases h0 : s₂.completions = []
      · rw [e2c1 h0] at hpl
        cases hpl
      · rw [e2c2 h0] at hpl
        exact List.mem_singleton.mp hpl
    · intro pl hpl
      by_cases h0 : s₁.completions = []
      · rw [e1c1 h0] at hpl
        cases hpl
      · rw [e1c2 h0] at hpl
        exact List.mem_singleton.mp hpl
    · constructor
      · intro h0
        by_cases h1 : s₁.completions = []
        · exact e1c1 h1
        · have h2 : s₂.completions ≠ [] := by rw [hcm]; exact h1
          rw [e2c2 h2] at h0
          cases h0
      · intro h0
        by_cases h1 : s₂.completions = []
        · exact e2c1 h1
        · have h2 : s₁.completions ≠ [] := by rw [← hcm]; exact h1
          rw [e1c2 h2] at h0
          cases h0

/-- The pattern of `eachFileMatching(/\.txt$/, ...)` on `claim3fs`, as the
set of full paths it matches there. -/
def claim7pat : String → Bool :=
  fun p => p == "root/a.txt" || p == "root/sub/b.txt"

/-- The final state of the `eachFileMatching` session on `claim3fs`. -/
def claim7state : EngineState FilterExt :=
  (runEachFileMatching claim3fs claim7pat "root" (List.replicate 7 0)).getD
    (initEngine ⟨[], [], [], []⟩ "root")

/-- The final state of the `eachFile` session on `claim3fs` under the same
schedule. -/
def claim7efState : EngineState FilterExt :=
  (runEachFile claim3fs "root" (List.replicate 7 0)).getD
    (initEngine ⟨[], [], [], []⟩ "root")

theorem claim7_witness :
    claim7state.ext.files = claim7efState.ext.files.filter claim7pat := by
  obtain ⟨s₁, h1, h2, -⟩ := claim7_matching_is_external_filter claim3fs
    claim7pat "root" (List.replicate 7 0) claim7state rfl
  have hs : s₁ = claim7efState := by
    have h1' := h1
    rw [show runEachFile claim3fs "root" (List.replicate 7 0) =
        some claim7efState from rfl] at h1'
    injection h1' with h1'
    exact h1'.symm
  rw [← hs]
  exact h2

/-- C8: in sequential mode, an exception thrown by any probe aborts the
entire call immediately: when visiting child `c` of a directory throws,
`eachFileOrDirectorySync` on that directory propagates the exception to
its caller, its handler trace contains exactly the directory itself, the
entries of the earlier siblings and the entries visited before the throw —
and nothing from the later siblings `cs₂`, which are never visited. -/
theorem claim8_sync_error_aborts (fs : Fsys) (n : Nat) (p c : String)
    (cs₁ cs₂ : List String) (r₁ rc : SyncResult) (e : IOErr)
    (hl : lookupFs fs p = some (FSNode.dir (cs₁ ++ c :: cs₂)))
    (h1 : syncChildrenOf (syncVisit fs n) p cs₁ = some r₁)
    (hne : r₁.error = none)
    (hc : syncVisit fs n (fullFilePath p c) = some rc)
    (he : rc.error = some e) :
    syncVisit fs (n + 1) p =
      some ⟨p :: (r₁.files ++ rc.files),
            statOf (FSNode.dir (cs₁ ++ c :: cs₂)) :: (r₁.stats ++ rc.stats),
            some e⟩ := by
  rw [syncVisit, hl]
  simp only
  rw [syncChildrenOf_abort (syncVisit fs n) p cs₁ cs₂ h1 hne hc he]

/-- A directory whose middle child is missing: `d/{a, bad, z}` with
`d/bad` absent. -/
def claim8fs : Fsys :=
  [("d", FSNode.dir ["a", "bad", "z"]),
   ("d/a", FSNode.file "x"), ("d/z", FSNode.file "y")]

theorem claim8_witness :
    syncVisit claim8fs 9 "d" =
      some ⟨["d", "d/a"], [Stat.mk true, Stat.mk false],
            some (IOErr.enoent "d/bad")⟩ :=
  claim8_sync_error_aborts claim8fs 8 "d" "bad" ["a"] ["z"]
    ⟨["d/a"], [Stat.mk false], none⟩ ⟨[], [], some (IOErr.enoent "d/bad")⟩
    (IOErr.enoent "d/bad") rfl rfl rfl rfl rfl

/-- C9 (counterexample): the claim says any duplicate trailing separator
on the parent is collapsed, so a parent ending in one or more slashes
yields a single separator.  `fullFilePath_` strips at most ONE trailing
slash (the pattern is anchored and non-global), so a parent ending in two
slashes keeps a double separator. -/
theorem claim9_counterexample : fullFilePath "a//" "b" ≠ "a/b" := by
  decide

/-- C9 (amended): the child path is formed by stripping at most one
trailing separator from the parent and joining with a single `/`: a parent
with no trailing slash or exactly one trailing slash yields exactly one
separator, but additional duplicate trailing slashes are kept (a parent
ending in `//` yields `//` in the child path). -/
theorem claim9_join_single_separator :
    (∀ d f : String, d.data.getLast? ≠ some '/' →
      fullFilePath d f = d ++ "/" ++ f) ∧
    (∀ d f : String, fullFilePath (d ++ "/") f = d ++ "/" ++ f) ∧
    fullFilePath "a//" "b" = "a//b" := by
  refine ⟨?_, ?_, by decide⟩
  · intro d f h
    unfold fullFilePath
    rw [stripTrailingSlash_of_no_slash d h]
  · intro d f
    unfold fullFilePath
    rw [stripTrailingSlash_append_slash]

theorem claim9_witness :
    fullFilePath "a" "b" = "a" ++ "/" ++ "b" ∧
    fullFilePath ("a" ++ "/") "b" = "a" ++ "/" ++ "b" :=
  ⟨claim9_join_single_separator.1 "a" "b" (by decide),
   claim9_join_single_separator.2.1 "a" "b"⟩

/-- C10: in every session of every operation, the accumulated files and
stats lists (and contents list, where present) correspond pointwise: the
engine's `checkedStats` is `checkedFiles` mapped through the stat of each
path (so the lists always have equal length and the i-th stat belongs to
the i-th file), every delivered completion payload satisfies the same
correspondence, the filter layers' `stats` arrays are their `files` arrays
mapped through the stats, the reader's `stats` and `contents` arrays are
its `files` array mapped through the stats and the contents (also inside
every delivered completion payload), the sequential traversal's stats
list is its files list mapped through the stats, and the sync layer
wrappers `eachFileSync`, `eachFileMatchingSync` and
`readEachFileMatchingSync` each return files and stats (and contents)
lists in the same pointwise correspondence. -/
theorem claim10_lockstep_accumulation :
    (∀ (σ : Type) (h : Handlers σ) (x : σ) (fs : Fsys) (root : String)
        (sch : List Nat) (s : EngineState σ),
      runEngine fs h x root sch = some s →
      s.checkedStats = s.checkedFiles.map (statAt fs) ∧
      ∀ pl ∈ s.completions, pl.2 = pl.1.map (statAt fs)) ∧
    (∀ (fs : Fsys) (root : String) (sch : List Nat)
        (s : EngineState FilterExt),
      runEachFile fs root sch = some s →
      s.ext.stats = s.ext.files.map (statAt fs)) ∧
    (∀ (fs : Fsys) (pat : String → Bool) (root : String) (sch : List Nat)
        (s : EngineState FilterExt),
      runEachFileMatching fs pat root sch = some s →
      s.ext.stats = s.ext.files.map (statAt fs)) ∧
    (∀ (fs : Fsys) (pat : String → Bool) (root : String)
        (sch : List (Nat ⊕ Nat)) (s : EngineState ReaderExt),
      runReader fs pat root sch = some s →
      s.ext.stats = s.ext.files.map (statAt fs) ∧
      s.ext.contents = s.ext.files.map (contentAt fs) ∧
      ∀ t ∈ s.ext.completions,
        t.2.1 = t.1.map (statAt fs) ∧ t.2.2 = t.1.map (contentAt fs)) ∧
    (∀ (fs : Fsys) (n : Nat) (p : String) (r : SyncResult),
      syncVisit fs n p = some r → r.stats = r.files.map (statAt fs)) ∧
    (∀ (fs : Fsys) (n : Nat) (p : String) (r : SyncResult),
      eachFileSyncRun fs n p = some r →
      r.stats = r.files.map (statAt fs)) ∧
    (∀ (fs : Fsys) (pat : String → Bool) (n : Nat) (p : String)
        (r : SyncResult),
      eachFileMatchingSyncRun fs pat n p = some r →
      r.stats = r.files.map (statAt fs)) ∧
    (∀ (fs : Fsys) (pat : String → Bool) (n : Nat) (p : String)
        (r : ReadSyncResult),
      readEachFileMatchingSyncRun fs pat n p = some r →
      r.stats = r.files.map (statAt fs) ∧
      r.contents = r.files.map (contentAt fs)) := by
  have hF : ∀ (fs : Fsys) (n : Nat) (p : String) (r : SyncResult),
      eachFileSyncRun fs n p = some r →
      r.stats = r.files.map (statAt fs) := by
    intro fs n p r hr
    unfold eachFileSyncRun at hr
    rw [Option.map_eq_some'] at hr
    obtain ⟨r₀, h₀, hr⟩ := hr
    subst hr
    dsimp only
    rw [(syncVisit_stats fs n).1 p r₀ h₀]
    exact zip_filter_lockstep (statAt fs) (fun _ st => !st.isDirectory)
      r₀.files
  have hG : ∀ (fs : Fsys) (pat : String → Bool) (n : Nat) (p : String)
      (r : SyncResult),
      eachFileMatchingSyncRun fs pat n p = some r →
      r.stats = r.files.map (statAt fs) := by
    intro fs pat n p r hr
    unfold eachFileMatchingSyncRun at hr
    rw [Option.map_eq_some'] at hr
    obtain ⟨r₀, h₀, hr⟩ := hr
    subst hr
    dsimp only
    rw [hF fs n p r₀ h₀]
    exact zip_filter_lockstep (statAt fs) (fun f _ => pat f) r₀.files
  have hH : ∀ (fs : Fsys) (pat : String → Bool) (n : Nat) (p : String)
      (r : ReadSyncResult),
      readEachFileMatchingSyncRun fs pat n p = some r →
      r.stats = r.files.map (statAt fs) ∧
      r.contents = r.files.map (contentAt fs) := by
    intro fs pat n p r hr
    unfold readEachFileMatchingSyncRun at hr
    rw [Option.map_eq_some'] at hr
    obtain ⟨r₀, h₀, hr⟩ := hr
    subst hr
    dsimp only
    rw [hG fs pat n p r₀ h₀]
    exact readMatchedSync_lockstep fs r₀.files
  refine ⟨?_, ?_, ?_, ?_, ?_, hF, hG, hH⟩
  · intro σ h x fs root sch s hr
    have inv := runEngine_inv hr
    refine ⟨inv.stats_eq, ?_⟩
    intro pl hpl
    rcases inv.comp_char with h0 | ⟨h0, _⟩
    · rw [h0] at hpl; cases hpl
    · rw [h0] at hpl
      rw [List.mem_singleton.mp hpl]
      exact inv.stats_eq
  · intro fs root sch s hr
    exact (runEachFile_ext hr).2.1
  · intro fs pat root sch s hr
    exact (runEachFileMatching_ext hr).2.1
  · intro fs pat root sch s hr
    have hi := runReader_inv hr
    exact ⟨hi.stats_eq, hi.contents_eq, hi.comps_ok⟩
  · intro fs n p r hr
    exact (syncVisit_stats fs n).1 p r hr

/-- The final state of the reader session on `claim5fs` after the read
resolves. -/
def claim10readerState : EngineState ReaderExt :=
  (runReader claim5fs (fun _ => true) "root"
      [Sum.inl 0, Sum.inl 0, Sum.inl 0, Sum.inr 0]).getD
    (initEngine ⟨[], [], [], [], [], [], [], [], [], []⟩ "root")

/-- The result of the matching-read sync pipeline on `claim3fs`. -/
def claim10syncRead : ReadSyncResult :=
  (readEachFileMatchingSyncRun claim3fs (fun _ => true) 9 "root").getD
    ⟨[], [], [], none⟩

theorem claim10_witness :
    claim2state.checkedStats =
      claim2state.checkedFiles.map (statAt [("r", FSNode.file "x")]) ∧
    claim3state.ext.stats = claim3state.ext.files.map (statAt claim3fs) ∧
    claim10readerState.ext.contents =
      claim10readerState.ext.files.map (contentAt claim5fs) ∧
    claim6sync.stats = claim6sync.files.map (statAt claim3fs) ∧
    claim10syncRead.stats = claim10syncRead.files.map (statAt claim3fs) ∧
    claim10syncRead.contents =
      claim10syncRead.files.map (contentAt claim3fs) := by
  have h := claim10_lockstep_accumulation
  have hread := h.2.2.2.2.2.2.2 claim3fs (fun _ => true) 9 "root"
    claim10syncRead rfl
  exact ⟨(h.1 Unit trivialHandlers () [("r", FSNode.file "x")] "r" [0]
            claim2state rfl).1,
         h.2.1 claim3fs "root" (List.replicate 7 0) claim3state rfl,
         (h.2.2.2.1 claim5fs (fun _ => true) "root"
            [Sum.inl 0, Sum.inl 0, Sum.inl 0, Sum.inr 0]
            claim10readerState rfl).2.1,
         h.2.2.2.2.1 claim3fs 9 "root" claim6sync rfl,
         hread.1, hread.2⟩

end FsTraverse
